import Mathlib

/-!
Verification of the tsdb2/common task-scheduler subsystem.

This file shallowly embeds the parts of the scheduler (common/scheduler.h and
its .cc), the mock clock (common/mock_clock.cc) and the absl time arithmetic
they rely on, and proves or refutes the frozen specification claims about
them.

Conventions used throughout:
* absolute times and durations are integer numbers of clock ticks (absl
  represents both as fixed-point tick counts; the tick unit is irrelevant to
  every claim);
* a task due time is a `WithBot Int`, with bottom standing for
  absl::InfinitePast (used by CancelInternal as the sift-up key);
* the scheduler queue is a list of (handle, due-time) pairs, index 0 being
  the front of the std::vector backing the heap.
-/

namespace TsdbSched

/-! ### absl duration arithmetic (absl/time/duration)

absl's integer division of durations truncates toward zero; Floor and Ceil
round to a multiple of the unit toward negative and positive infinity
respectively.  The C++ sources are:
  Floor(d, unit): f = (d / unit) * unit; return d < f ? f - unit : f;
  Ceil(d, unit):  return -Floor(-d, unit);
-/

/-- absl integer division of durations (operator/ on Durations): truncation
toward zero. -/
def idivDuration (d unit : ℤ) : ℤ := Int.tdiv d unit

/-- absl Floor(d, unit): the largest multiple of unit that is no greater
than d, computed exactly as the absl source does. -/
def floorDuration (d unit : ℤ) : ℤ :=
  if d < idivDuration d unit * unit then idivDuration d unit * unit - unit
  else idivDuration d unit * unit

/-- absl Ceil(d, unit), computed exactly as the absl source does. -/
def ceilDuration (d unit : ℤ) : ℤ := -(floorDuration (-d) unit)

/-- Mathematical ceiling division of integers, used to state the spec's
formula k = max(1, ceil((T - D) / P)).  For a positive divisor b this is
the integer ceiling of the rational a / b (see ceilDivInt_spec). -/
def ceilDivInt (a b : ℤ) : ℤ := -(Int.fdiv (-a) b)

theorem tmod_neg_arg (a b : ℤ) : Int.tmod (-a) b = -(Int.tmod a b) := by
  have h1 := Int.tmod_def a b
  have h2 := Int.tmod_def (-a) b
  rw [Int.neg_tdiv] at h2
  rw [h1, h2]; ring

/-- The embedded floorDuration really is the floor to a multiple of the
unit: for a positive unit it is a multiple of the unit lying in
(d - unit, d]. -/
theorem floorDuration_spec (d unit : ℤ) (hu : 0 < unit) :
    floorDuration d unit ≤ d ∧ d < floorDuration d unit + unit ∧
      unit ∣ floorDuration d unit := by
  have hq := Int.tdiv_add_tmod d unit
  simp only [floorDuration, idivDuration]
  rcases le_or_lt 0 d with hd | hd
  · have hr0 : 0 ≤ Int.tmod d unit := Int.tmod_nonneg unit hd
    have hrlt : Int.tmod d unit < unit := Int.tmod_lt_of_pos d hu
    have hcond : ¬ d < Int.tdiv d unit * unit := by nlinarith [hq]
    rw [if_neg hcond]
    exact ⟨by nlinarith [hq], by nlinarith [hq], dvd_mul_left unit _⟩
  · have hr0 : 0 ≤ Int.tmod (-d) unit := Int.tmod_nonneg unit (by omega)
    have hrlt : Int.tmod (-d) unit < unit := Int.tmod_lt_of_pos (-d) hu
    rw [tmod_neg_arg] at hr0 hrlt
    rcases eq_or_lt_of_le (by omega : Int.tmod d unit ≤ 0) with hz | hneg
    · have hcond : ¬ d < Int.tdiv d unit * unit := by nlinarith [hq]
      rw [if_neg hcond]
      exact ⟨by nlinarith [hq], by nlinarith [hq], dvd_mul_left unit _⟩
    · have hcond : d < Int.tdiv d unit * unit := by nlinarith [hq]
      rw [if_pos hcond]
      exact ⟨by nlinarith [hq], by nlinarith [hq],
        dvd_sub (dvd_mul_left unit _) dvd_rfl⟩

/-- ceilDuration is the smallest multiple of the unit that is at least d. -/
theorem ceilDuration_spec (d unit : ℤ) (hu : 0 < unit) :
    d ≤ ceilDuration d unit ∧ ceilDuration d unit < d + unit ∧
      unit ∣ ceilDuration d unit := by
  obtain ⟨h1, h2, h3⟩ := floorDuration_spec (-d) unit hu
  refine ⟨by simp only [ceilDuration]; omega,
          by simp only [ceilDuration]; omega, ?_⟩
  simpa [ceilDuration] using h3.neg_right

/-- ceilDivInt b-multiples bracket a: for b positive, ceilDivInt a b is the
integer ceiling of a / b. -/
theorem ceilDivInt_spec (a b : ℤ) (hb : 0 < b) :
    a ≤ ceilDivInt a b * b ∧ ceilDivInt a b * b < a + b := by
  have hfd : Int.fdiv (-a) b = (-a) / b := Int.fdiv_eq_ediv (-a) (le_of_lt hb)
  have hq := Int.ediv_add_emod (-a) b
  have hr0 : 0 ≤ (-a) % b := Int.emod_nonneg (-a) (ne_of_gt hb)
  have hrlt : (-a) % b < b := Int.emod_lt_of_pos (-a) hb
  constructor
  · simp only [ceilDivInt, hfd]; nlinarith [hq]
  · simp only [ceilDivInt, hfd]; nlinarith [hq]

/-- Two multiples of a positive b within distance less than b of each other
are equal; used to identify ceilDuration with ceilDivInt * b. -/
theorem ceilDuration_eq_ceilDivInt_mul (d b : ℤ) (hb : 0 < b) :
    ceilDuration d b = ceilDivInt d b * b := by
  obtain ⟨h1, h2, k, hk⟩ := ceilDuration_spec d b hb
  obtain ⟨h4, h5⟩ := ceilDivInt_spec d b hb
  have hdiff : ceilDuration d b - ceilDivInt d b * b = b * (k - ceilDivInt d b) := by
    rw [hk]; ring
  have habs : |ceilDuration d b - ceilDivInt d b * b| < b := by
    rw [abs_lt]; omega
  rw [hdiff, abs_mul, abs_of_pos hb] at habs
  have hone : |k - ceilDivInt d b| < 1 := by
    by_contra hcon
    push_neg at hcon
    nlinarith [habs]
  rw [abs_lt] at hone
  have hkc : k = ceilDivInt d b := by omega
  rw [hk, hkc]; ring

/-! ### Scheduler::FetchTask periodic re-queue arithmetic

The source (common/scheduler.cc, FetchTask) re-arms a finished periodic
task as:
  last_task->set_due_time(due_time +
      std::max(absl::Ceil(clock_->TimeNow() - due_time, period), period));
-/

/-- The next due time computed by FetchTask when re-queuing a periodic task
with original due time D, period P, at wall time T. -/
def nextDueTime (D P T : ℤ) : ℤ := D + max (ceilDuration (T - D) P) P

/-- Claim C1: for a periodic task whose callback finishes at wall time T,
with due time D and period P (T at or after D, P positive), the re-queue
computes next due time exactly D + k * P where k = max(1, ceil((T - D) / P)). -/
theorem c1_periodic_requeue_due_time (D P T : ℤ) (hP : 0 < P) (hT : D ≤ T) :
    nextDueTime D P T = D + max 1 (ceilDivInt (T - D) P) * P := by
  have hmul : max 1 (ceilDivInt (T - D) P) * P
      = max (1 * P) (ceilDivInt (T - D) P * P) :=
    max_mul_of_nonneg 1 (ceilDivInt (T - D) P) (le_of_lt hP)
  rw [nextDueTime, ceilDuration_eq_ceilDivInt_mul (T - D) P hP, hmul, one_mul,
    max_comm]

/-- Witness for Claim C1 at D = 0, P = 5, T = 12: the next due time is 15
(two whole periods past the original due time, skipping the missed firing). -/
theorem c1_periodic_requeue_due_time_witness :
    0 < (5 : ℤ) ∧ (0 : ℤ) ≤ 12 ∧
      nextDueTime 0 5 12 = 0 + max 1 (ceilDivInt (12 - 0) 5) * 5 :=
  ⟨by decide, by decide, c1_periodic_requeue_due_time 0 5 12 (by decide) (by decide)⟩

/-! ### MockClock (common/mock_clock.cc)

The mock clock holds a virtual time and a set of registered time listeners.
SetTime check-fails (halts the process) when moving backward, modelled as
returning none.  Both SetTime and AdvanceTime swap the listener set into a
local (emptying the member set) and then run exactly the swapped-out
listeners outside the clock lock; the pair returned below is (new clock
state, ids of the listeners that get notified).  AwaitWithDeadline registers
one listener whose Run stores the new time into the waiting thread's cached
current_time local. -/

structure MockClockState where
  currentTime : ℤ
  listeners : List ℕ
deriving DecidableEq

/-- MockClock::TimeNow. -/
def timeNow (c : MockClockState) : ℤ := c.currentTime

/-- MockClock::SetTime.  CHECK_GE(time, current_time_) halts when time is
earlier than the current virtual time (modelled as none); otherwise stores
the time, swaps out the listener set, and notifies the swapped-out
listeners. -/
def setTime (c : MockClockState) (t : ℤ) : Option (MockClockState × List ℕ) :=
  if t < c.currentTime then none
  else some ({ currentTime := t, listeners := [] }, c.listeners)

/-- MockClock::AdvanceTime.  No check on the delta; adds it to the virtual
time, swaps out the listener set, and notifies the swapped-out listeners. -/
def advanceTime (c : MockClockState) (delta : ℤ) : MockClockState × List ℕ :=
  ({ currentTime := c.currentTime + delta, listeners := [] }, c.listeners)

/-- MockClock::AddListener, called by AwaitWithDeadline on entry. -/
def addListener (c : MockClockState) (id : ℕ) : MockClockState :=
  { c with listeners := id :: c.listeners }

/-- The client-side state of one AwaitWithDeadline call: the id of the
listener it registered, the cached current_time local captured at entry,
and the deadline.  The await condition re-evaluated on each wake is
(cachedTime at or past the deadline) or the client predicate. -/
structure Waiter where
  id : ℕ
  cachedTime : ℤ
  deadline : ℤ
deriving DecidableEq

/-- One notification round as seen by a waiter: TimeListener::Run stores the
new time into the waiter's cached current_time, but only if that waiter's
listener was in the notified set. -/
def notifyWaiter (w : Waiter) (notified : List ℕ) (newTime : ℤ) : Waiter :=
  if w.id ∈ notified then { w with cachedTime := newTime } else w

/-! #### Claim C9: monotonicity of the mock clock -/

/-- Counterexample to Claim C9 as stated: AdvanceTime accepts an arbitrary
(here negative) delta with no check, so TimeNow moves backward: from
virtual time 10, AdvanceTime(-5) makes TimeNow return 5 < 10. -/
theorem c9_advance_negative_counterexample :
    timeNow (advanceTime (MockClockState.mk 10 []) (-5)).1
      < timeNow (MockClockState.mk 10 []) := by decide

/-- Claim C9 as amended: SetTime check-fails exactly when its argument is
earlier than the current virtual time and otherwise never decreases it, and
AdvanceTime with a nonnegative delta never decreases it. -/
theorem c9_mock_clock_monotonic (c : MockClockState) (t delta : ℤ) :
    (setTime c t = none ↔ t < timeNow c) ∧
      (∀ c2 ns, setTime c t = some (c2, ns) → timeNow c ≤ timeNow c2) ∧
      (0 ≤ delta → timeNow c ≤ timeNow (advanceTime c delta).1) := by
  refine ⟨?_, ?_, ?_⟩
  · constructor
    · intro hnone
      by_contra hcon
      simp only [setTime, timeNow] at hnone hcon
      rw [if_neg hcon] at hnone
      exact Option.some_ne_none _ hnone
    · intro hlt
      simp only [setTime, timeNow] at hlt ⊢
      rw [if_pos hlt]
  · intro c2 ns hset
    simp only [setTime] at hset
    by_cases hlt : t < c.currentTime
    · rw [if_pos hlt] at hset; exact absurd hset (by simp)
    · rw [if_neg hlt] at hset
      obtain ⟨h1, -⟩ := Prod.mk.injEq .. ▸ (Option.some.injEq .. ▸ hset)
      simp only [timeNow, ← h1]
      omega
  · intro hd
    simp only [timeNow, advanceTime]
    omega

/-- Witness for the amended Claim C9 at virtual time 4, SetTime 9,
AdvanceTime 3. -/
theorem c9_mock_clock_monotonic_witness :
    (setTime (MockClockState.mk 4 []) 9 = none ↔ (9 : ℤ) < timeNow (MockClockState.mk 4 [])) ∧
      (∀ c2 ns, setTime (MockClockState.mk 4 []) 9 = some (c2, ns) →
        timeNow (MockClockState.mk 4 []) ≤ timeNow c2) ∧
      ((0 : ℤ) ≤ 3 → timeNow (MockClockState.mk 4 [])
        ≤ timeNow (advanceTime (MockClockState.mk 4 []) 3).1) :=
  c9_mock_clock_monotonic (MockClockState.mk 4 []) 9 3

/-! #### Claim C3: listener registration across time advances -/

/-- Every SetTime/AdvanceTime call does notify exactly the listeners
registered at the moment of the call, but it also unregisters all of them
(the member set is swapped empty). -/
theorem advanceTime_swaps_out_listeners (c : MockClockState) (delta : ℤ) :
    (advanceTime c delta).2 = c.listeners ∧ (advanceTime c delta).1.listeners = [] :=
  ⟨rfl, rfl⟩

/-- Failing evaluation for Claim C3.  A waiter enters AwaitWithDeadline at
virtual time 0 with deadline 100, registering listener 7.  AdvanceTime(10)
notifies it (cached time 10) but removes it from the clock's listener
set; the wait has not returned (cached time is below the deadline).  The
subsequent AdvanceTime(200) finds an empty listener set and notifies
nobody, so the blocked waiter's cached time stays 10 even though virtual
time is 210: the claim's conclusion (every subsequent advance updates the
cached time until the deadline is met) fails. -/
theorem c3_listener_swap_counterexample :
    (advanceTime (addListener (MockClockState.mk 0 []) 7) 10).1.listeners = [] ∧
      (notifyWaiter (Waiter.mk 7 0 100)
          (advanceTime (addListener (MockClockState.mk 0 []) 7) 10).2 10).cachedTime = 10 ∧
      ((advanceTime (advanceTime (addListener (MockClockState.mk 0 []) 7) 10).1 200).2 = []) ∧
      (notifyWaiter
          (notifyWaiter (Waiter.mk 7 0 100)
            (advanceTime (addListener (MockClockState.mk 0 []) 7) 10).2 10)
          (advanceTime (advanceTime (addListener (MockClockState.mk 0 []) 7) 10).1 200).2
          210).cachedTime = 10 ∧
      (notifyWaiter
          (notifyWaiter (Waiter.mk 7 0 100)
            (advanceTime (addListener (MockClockState.mk 0 []) 7) 10).2 10)
          (advanceTime (advanceTime (addListener (MockClockState.mk 0 []) 7) 10).1 200).2
          210).cachedTime < 100 := by
  decide

/-! ### The scheduler task queue (common/scheduler.h, common/scheduler.cc)

The queue (Scheduler::queue_) is a std::vector of TaskRefs arranged as a
binary min-heap on due time: CompareTasks compares with operator> on
due_time so the STL max-heap algorithms produce a min-heap, the earliest
due time sitting at index 0.  A queue entry is modelled by the pair of the
referenced task's handle and due time; a due time is a WithBot Int, bottom
being absl::InfinitePast (assigned by CancelInternal before sifting the
cancelled task to the root).

The sift loops of std::push_heap and std::pop_heap are written below with
an explicit structural fuel so that all definitions compute by kernel
reduction; the fuel passed by the wrappers (the start index for sift-up,
the prefix size for sift-down) always exceeds the number of loop
iterations, whose index strictly decreases (sift-up) or strictly increases
within the prefix (sift-down). -/

/-- Task due times: an integer tick count or bottom (absl::InfinitePast). -/
abbrev ETime := WithBot ℤ

/-- A queue slot: the referenced task's handle and its due time. -/
abbrev TaskE := ℕ × ETime

/-- Default entry used by the positional accessors (never read in range). -/
def dTsk : TaskE := (0, ⊥)

/-- Entry at index i of the queue. -/
def entryAt (q : List TaskE) (i : ℕ) : TaskE := q.getD i dTsk

/-- Due time at index i of the queue. -/
def dueAt (q : List TaskE) (i : ℕ) : ETime := (entryAt q i).2

/-- Exchange of the entries at two indices (the effect of the STL heap
algorithms' swaps of TaskRefs; the TaskRef move operations keep the task
backlinks pointing at the right slots, modelled separately for claim C10). -/
def swapL (q : List TaskE) (i j : ℕ) : List TaskE :=
  (q.set i (entryAt q j)).set j (entryAt q i)

/-- Sift-up loop of std::push_heap with comparator CompareTasks
(lhs.due_time() > rhs.due_time()): while the element at index i has a
parent with strictly greater due time, swap it with the parent.  The first
argument is structural fuel; an initial fuel equal to the start index
always suffices because the index strictly decreases. -/
def siftUpAux : ℕ → List TaskE → ℕ → List TaskE
  | 0, q, _ => q
  | _ + 1, q, 0 => q
  | fuel + 1, q, i + 1 =>
    let p := i / 2
    if dueAt q (i + 1) < dueAt q p then siftUpAux fuel (swapL q p (i + 1)) p
    else q

/-- std::push_heap(begin, begin + i + 1, CompareTasks()): restores the heap
over the prefix ending at index i, assuming the prefix was a heap except
for the element at index i. -/
def siftUp (q : List TaskE) (i : ℕ) : List TaskE := siftUpAux i q i

/-- Scheduler::ScheduleInternal's queue mutation: queue_.emplace_back(&task)
followed by std::push_heap over the whole queue. -/
def pushQ (q : List TaskE) (t : TaskE) : List TaskE := siftUp (q ++ [t]) q.length

/-- Sift-down loop restoring the heap over the prefix of size n after the
root of that prefix has been replaced: descend toward the child with the
smaller due time (ties resolved like libstdc++, toward the right child)
while a child improves on the current element.  The first argument is
structural fuel; an initial fuel of n always suffices because the index
strictly increases and stays below n. -/
def siftDownAux : ℕ → List TaskE → ℕ → ℕ → List TaskE
  | 0, q, _, _ => q
  | fuel + 1, q, i, n =>
    if 2 * i + 1 < n then
      let c := if 2 * i + 2 < n then
          (if dueAt q (2 * i + 2) ≤ dueAt q (2 * i + 1) then 2 * i + 2
           else 2 * i + 1)
        else 2 * i + 1
      if dueAt q c < dueAt q i then siftDownAux fuel (swapL q i c) c n
      else q
    else q

/-- std::pop_heap(begin, end, CompareTasks()): move the front (the entry
with the least due time) to the back and restore the heap on the remaining
prefix.  The scheduler never calls this on an empty queue. -/
def popHeapQ (q : List TaskE) : List TaskE :=
  if q.length ≤ 1 then q
  else siftDownAux (q.length - 1) (swapL q 0 (q.length - 1)) 0 (q.length - 1)

/-- CancelInternal's removal of the queued task found at slot i (the slot
the task's backlink points at): set its due time to absl::InfinitePast,
std::push_heap over the prefix ending at that slot (sifting the entry to
the root), std::pop_heap over the whole queue, and pop_back. -/
def cancelRemove (q : List TaskE) (i : ℕ) : List TaskE :=
  ((popHeapQ (siftUp (q.set i ((entryAt q i).1, ⊥)) i))).dropLast

/-- Scheduler::is_task_due: false on an empty queue, else whether the front
task is not cancelled and its due time has been reached; the cancelled
flags live in the registry and are supplied as the set of cancelled
handles. -/
def isTaskDueM (q : List TaskE) (cancelledH : List ℕ) (now : ℤ) : Bool :=
  match q with
  | [] => false
  | t :: _ => !(decide (t.1 ∈ cancelledH)) && decide (t.2 ≤ ((now : ℤ) : ETime))

/-- The min-heap-on-due-time property of the queue array (parent at
(i-1)/2 is due no later than child at i). -/
def IsMinHeap (q : List TaskE) : Prop :=
  ∀ i, i < q.length → 0 < i → dueAt q ((i - 1) / 2) ≤ dueAt q i

instance (q : List TaskE) : Decidable (IsMinHeap q) := by
  unfold IsMinHeap; infer_instance

/-! #### Positional accessor facts -/

theorem entryAt_eq_getElem (q : List TaskE) (i : ℕ) (h : i < q.length) :
    entryAt q i = q[i] := by
  simp [entryAt, List.getD_eq_getElem?_getD, List.getElem?_eq_getElem h]

theorem entryAt_set_self (q : List TaskE) (i : ℕ) (a : TaskE) (h : i < q.length) :
    entryAt (q.set i a) i = a := by
  simp [entryAt, List.getD_eq_getElem?_getD, List.getElem?_set_self h]

theorem entryAt_set_ne (q : List TaskE) (i j : ℕ) (a : TaskE) (h : i ≠ j) :
    entryAt (q.set i a) j = entryAt q j := by
  simp [entryAt, List.getD_eq_getElem?_getD, List.getElem?_set_ne h]

theorem length_swapL (q : List TaskE) (i j : ℕ) :
    (swapL q i j).length = q.length := by
  simp [swapL]

theorem entryAt_swapL_fst (q : List TaskE) (i j : ℕ) (hi : i < q.length)
    (hij : i ≠ j) : entryAt (swapL q i j) i = entryAt q j := by
  rw [swapL, entryAt_set_ne _ _ _ _ (Ne.symm hij), entryAt_set_self _ _ _ hi]

theorem entryAt_swapL_snd (q : List TaskE) (i j : ℕ) (hj : j < q.length) :
    entryAt (swapL q i j) j = entryAt q i := by
  rw [swapL, entryAt_set_self]
  simpa using hj

theorem entryAt_swapL_other (q : List TaskE) (i j k : ℕ) (hki : k ≠ i)
    (hkj : k ≠ j) : entryAt (swapL q i j) k = entryAt q k := by
  rw [swapL, entryAt_set_ne _ _ _ _ (Ne.symm hkj), entryAt_set_ne _ _ _ _ (Ne.symm hki)]

theorem count_set_dec {α : Type} [DecidableEq α] (a b : α) :
    ∀ (l : List α) (i : ℕ) (h : i < l.length),
      List.count b (l.set i a) + (if l[i] = b then 1 else 0)
        = List.count b l + (if a = b then 1 else 0)
  | x :: xs, 0, _ => by
    simp only [List.set_cons_zero, List.count_cons, List.getElem_cons_zero,
      beq_iff_eq]
    omega
  | x :: xs, i + 1, h => by
    have ih := count_set_dec a b xs i
      (by simp only [List.length_cons] at h; omega)
    simp only [List.set_cons_succ, List.count_cons, List.getElem_cons_succ,
      beq_iff_eq]
    omega

theorem swapL_perm (q : List TaskE) (i j : ℕ) (hi : i < q.length)
    (hj : j < q.length) (hij : i ≠ j) : (swapL q i j).Perm q := by
  rw [List.perm_iff_count]
  intro x
  have hj2 : j < (q.set i (entryAt q j)).length := by simpa using hj
  have h1 := count_set_dec (entryAt q i) x (q.set i (entryAt q j)) j hj2
  have h2 := count_set_dec (entryAt q j) x q i hi
  have hgj : (q.set i (entryAt q j))[j] = q[j] := List.getElem_set_ne hij _
  have hei : entryAt q i = q[i] := entryAt_eq_getElem q i hi
  have hej : entryAt q j = q[j] := entryAt_eq_getElem q j hj
  rw [hgj] at h1
  rw [hei, hej] at h1
  rw [hej] at h2
  rw [swapL, hei, hej]
  omega

/-! #### Sift-up (std::push_heap) lemmas -/

theorem entryAt_append_lt (q r : List TaskE) (k : ℕ) (h : k < q.length) :
    entryAt (q ++ r) k = entryAt q k := by
  simp [entryAt, List.getD_eq_getElem?_getD, List.getElem?_append_left h]

theorem entryAt_append_self (q : List TaskE) (t : TaskE) :
    entryAt (q ++ [t]) q.length = t := by
  simp [entryAt, List.getD_eq_getElem?_getD, List.getElem?_append_right (le_refl q.length)]

theorem siftUpAux_length : ∀ (fuel : ℕ) (q : List TaskE) (i : ℕ),
    (siftUpAux fuel q i).length = q.length
  | 0, _, _ => rfl
  | _ + 1, _, 0 => rfl
  | fuel + 1, q, i + 1 => by
    simp only [siftUpAux]
    split
    · rw [siftUpAux_length fuel _ _, length_swapL]
    · rfl

theorem siftUpAux_perm : ∀ (fuel : ℕ) (q : List TaskE) (i : ℕ), i < q.length →
    (siftUpAux fuel q i).Perm q
  | 0, q, _, _ => List.Perm.refl q
  | _ + 1, q, 0, _ => List.Perm.refl q
  | fuel + 1, q, i + 1, h => by
    have hp : i / 2 < i + 1 := Nat.lt_succ_of_le (Nat.div_le_self i 2)
    have hplen : i / 2 < q.length := lt_trans hp h
    simp only [siftUpAux]
    split
    · exact (siftUpAux_perm fuel _ _ (by rw [length_swapL]; exact hplen)).trans
        (swapL_perm q (i / 2) (i + 1) hplen h (ne_of_lt hp))
    · exact List.Perm.refl q

theorem siftUpAux_entryAt_gt : ∀ (fuel : ℕ) (q : List TaskE) (i k : ℕ), i < k →
    entryAt (siftUpAux fuel q i) k = entryAt q k
  | 0, _, _, _, _ => rfl
  | _ + 1, _, 0, _, _ => rfl
  | fuel + 1, q, i + 1, k, hk => by
    have hp : i / 2 < i + 1 := Nat.lt_succ_of_le (Nat.div_le_self i 2)
    simp only [siftUpAux]
    split
    · rw [siftUpAux_entryAt_gt fuel _ _ _ (lt_trans hp hk),
        entryAt_swapL_other _ _ _ _ (by omega : k ≠ i / 2) (by omega : k ≠ i + 1)]
    · rfl

/-- Heap property except possibly on the edge into index i, plus the
guarantee that the children of i dominate i's parent (the standard sift-up
loop invariant). -/
def UpHeapExcept (q : List TaskE) (i : ℕ) : Prop :=
  (∀ j, j < q.length → 0 < j → j ≠ i → dueAt q ((j - 1) / 2) ≤ dueAt q j) ∧
  (0 < i → ∀ c, c < q.length → (c - 1) / 2 = i → dueAt q ((i - 1) / 2) ≤ dueAt q c)

theorem dueAt_congr {q r : List TaskE} {i j : ℕ}
    (h : entryAt q i = entryAt r j) : dueAt q i = dueAt r j :=
  congrArg Prod.snd h

theorem siftUpAux_heap : ∀ (fuel : ℕ) (q : List TaskE) (i : ℕ), i ≤ fuel →
    i < q.length → UpHeapExcept q i → IsMinHeap (siftUpAux fuel q i)
  | 0, q, i, hf, _, hex => by
    intro j hj hpos
    exact hex.1 j hj hpos (by omega)
  | _ + 1, q, 0, _, _, hex => by
    intro j hj hpos
    exact hex.1 j hj hpos (by omega)
  | fuel + 1, q, i + 1, hf, hlen, hex => by
    have hp : i / 2 < i + 1 := Nat.lt_succ_of_le (Nat.div_le_self i 2)
    have hplen : i / 2 < q.length := lt_trans hp hlen
    simp only [siftUpAux]
    split
    case isTrue hcond =>
      refine siftUpAux_heap fuel _ (i / 2) (by omega) (by rw [length_swapL]; exact hplen) ?_
      have d_p : dueAt (swapL q (i / 2) (i + 1)) (i / 2) = dueAt q (i + 1) :=
        dueAt_congr (entryAt_swapL_fst q _ _ hplen (ne_of_lt hp))
      have d_s : dueAt (swapL q (i / 2) (i + 1)) (i + 1) = dueAt q (i / 2) :=
        dueAt_congr (entryAt_swapL_snd q _ _ hlen)
      have d_o : ∀ k, k ≠ i / 2 → k ≠ i + 1 →
          dueAt (swapL q (i / 2) (i + 1)) k = dueAt q k := fun k h1 h2 =>
        dueAt_congr (entryAt_swapL_other q _ _ k h1 h2)
      constructor
      · intro j hj hpos hjp
        rw [length_swapL] at hj
        by_cases hji : j = i + 1
        · subst hji
          have hpar : (i + 1 - 1) / 2 = i / 2 := by omega
          rw [hpar, d_p, d_s]
          exact le_of_lt hcond
        · rw [d_o j hjp hji]
          by_cases hpjp : (j - 1) / 2 = i / 2
          · rw [hpjp, d_p]
            have h4 := hex.1 j hj hpos hji
            rw [hpjp] at h4
            exact le_trans (le_of_lt hcond) h4
          · by_cases hpji : (j - 1) / 2 = i + 1
            · rw [hpji, d_s]
              have h2 := hex.2 (by omega) j hj hpji
              have hpar : (i + 1 - 1) / 2 = i / 2 := by omega
              rw [hpar] at h2
              exact h2
            · rw [d_o _ hpjp hpji]
              exact hex.1 j hj hpos hji
      · intro hp0 c hc hcp
        rw [length_swapL] at hc
        have hedge : dueAt q ((i / 2 - 1) / 2) ≤ dueAt q (i / 2) :=
          hex.1 (i / 2) hplen hp0 (by omega)
        rw [d_o ((i / 2 - 1) / 2) (by omega) (by omega)]
        by_cases hci : c = i + 1
        · subst hci
          rw [d_s]
          exact hedge
        · rw [d_o c (by omega) hci]
          have h3 := hex.1 c hc (by omega) hci
          rw [hcp] at h3
          exact le_trans hedge h3
    case isFalse hcond =>
      intro j hj hpos
      by_cases hji : j = i + 1
      · subst hji
        have hpar : (i + 1 - 1) / 2 = i / 2 := by omega
        rw [hpar]
        exact le_of_not_lt hcond
      · exact hex.1 j hj hpos hji

theorem upHeapExcept_append (q : List TaskE) (t : TaskE) (hq : IsMinHeap q) :
    UpHeapExcept (q ++ [t]) q.length := by
  constructor
  · intro j hj hpos hjL
    simp only [List.length_append, List.length_cons, List.length_nil] at hj
    have hjlt : j < q.length := by omega
    have hplt : (j - 1) / 2 < q.length := by omega
    rw [dueAt_congr (entryAt_append_lt q [t] _ hplt),
      dueAt_congr (entryAt_append_lt q [t] _ hjlt)]
    exact hq j hjlt hpos
  · intro hL c hc hcp
    simp only [List.length_append, List.length_cons, List.length_nil] at hc
    omega

theorem pushQ_length (q : List TaskE) (t : TaskE) :
    (pushQ q t).length = q.length + 1 := by
  rw [pushQ, siftUp, siftUpAux_length]
  simp

theorem pushQ_heap (q : List TaskE) (t : TaskE) (hq : IsMinHeap q) :
    IsMinHeap (pushQ q t) := by
  rw [pushQ, siftUp]
  exact siftUpAux_heap q.length (q ++ [t]) q.length (le_refl _)
    (by simp) (upHeapExcept_append q t hq)

theorem pushQ_perm (q : List TaskE) (t : TaskE) : (pushQ q t).Perm (t :: q) := by
  rw [pushQ, siftUp]
  exact (siftUpAux_perm q.length (q ++ [t]) q.length (by simp)).trans
    (List.perm_append_singleton t q)

theorem upHeapExcept_set_bot (q : List TaskE) (i : ℕ) (v : TaskE)
    (hv : v.2 = ⊥) (hq : IsMinHeap q) (hi : i < q.length) :
    UpHeapExcept (q.set i v) i := by
  constructor
  · intro j hj hpos hji
    simp only [List.length_set] at hj
    rw [dueAt_congr (entryAt_set_ne q i j v (Ne.symm hji))]
    by_cases hpj : (j - 1) / 2 = i
    · rw [hpj]
      show (entryAt (q.set i v) i).2 ≤ dueAt q j
      rw [entryAt_set_self q i v hi, hv]
      exact bot_le
    · rw [dueAt_congr (entryAt_set_ne q i _ v (Ne.symm hpj))]
      exact hq j hj hpos
  · intro hp0 c hc hcp
    simp only [List.length_set] at hc
    have hne_pp : (i - 1) / 2 ≠ i := by omega
    have hne_c : c ≠ i := by omega
    rw [dueAt_congr (entryAt_set_ne q i _ v (Ne.symm hne_pp)),
      dueAt_congr (entryAt_set_ne q i c v (Ne.symm hne_c))]
    have h1 : dueAt q ((i - 1) / 2) ≤ dueAt q i := hq i hi hp0
    have h2 := hq c hc (by omega)
    rw [hcp] at h2
    exact le_trans h1 h2

/-! #### Sift-down (std::pop_heap) lemmas -/

/-- Heap property on the prefix of length n. -/
def PrefixMinHeap (q : List TaskE) (n : ℕ) : Prop :=
  ∀ j, j < n → 0 < j → dueAt q ((j - 1) / 2) ≤ dueAt q j

/-- Heap property on the prefix of length n except possibly on the edges
out of index i, plus the guarantee that i's parent dominates i's
children (the standard sift-down loop invariant). -/
def DownHeapExcept (q : List TaskE) (i n : ℕ) : Prop :=
  (∀ j, j < n → 0 < j → (j - 1) / 2 ≠ i → dueAt q ((j - 1) / 2) ≤ dueAt q j) ∧
  (0 < i → ∀ c, c < n → (c - 1) / 2 = i → dueAt q ((i - 1) / 2) ≤ dueAt q c)

theorem siftDownAux_length : ∀ (fuel : ℕ) (q : List TaskE) (i n : ℕ),
    (siftDownAux fuel q i n).length = q.length
  | 0, _, _, _ => rfl
  | fuel + 1, q, i, n => by
    simp only [siftDownAux]
    repeat' split
    all_goals first
      | rw [siftDownAux_length fuel _ _ _, length_swapL]
      | rfl

theorem siftDownAux_perm : ∀ (fuel : ℕ) (q : List TaskE) (i n : ℕ),
    n ≤ q.length → (siftDownAux fuel q i n).Perm q
  | 0, q, _, _, _ => List.Perm.refl q
  | fuel + 1, q, i, n, hn => by
    simp only [siftDownAux]
    split
    case isTrue h1 =>
      set c := if 2 * i + 2 < n then
          (if dueAt q (2 * i + 2) ≤ dueAt q (2 * i + 1) then 2 * i + 2
           else 2 * i + 1)
        else 2 * i + 1 with hc
      have hcn : c < n := by
        rw [hc]; split
        · split <;> omega
        · omega
      have hic : i < c := by
        rw [hc]; split
        · split <;> omega
        · omega
      by_cases hlt : dueAt q c < dueAt q i
      · rw [if_pos hlt]
        exact (siftDownAux_perm fuel _ c n (by rw [length_swapL]; exact hn)).trans
          (swapL_perm q i c (by omega) (by omega) (by omega))
      · rw [if_neg hlt]
    case isFalse => exact List.Perm.refl q

theorem siftDownAux_entryAt_ge : ∀ (fuel : ℕ) (q : List TaskE) (i n k : ℕ),
    n ≤ k → i < n → entryAt (siftDownAux fuel q i n) k = entryAt q k
  | 0, _, _, _, _, _, _ => rfl
  | fuel + 1, q, i, n, k, hk, hin => by
    simp only [siftDownAux]
    split
    case isTrue h1 =>
      set c := if 2 * i + 2 < n then
          (if dueAt q (2 * i + 2) ≤ dueAt q (2 * i + 1) then 2 * i + 2
           else 2 * i + 1)
        else 2 * i + 1 with hc
      have hcn : c < n := by
        rw [hc]; split
        · split <;> omega
        · omega
      by_cases hlt : dueAt q c < dueAt q i
      · rw [if_pos hlt,
          siftDownAux_entryAt_ge fuel _ c n k hk hcn,
          entryAt_swapL_other q i c k (by omega) (by omega)]
      · rw [if_neg hlt]
    case isFalse => rfl

theorem siftDownAux_heap : ∀ (fuel : ℕ) (q : List TaskE) (i n : ℕ),
    n - i ≤ fuel → n ≤ q.length → DownHeapExcept q i n →
    PrefixMinHeap (siftDownAux fuel q i n) n
  | 0, q, i, n, hf, _, hex => by
    intro j hj hpos
    exact hex.1 j hj hpos (by omega)
  | fuel + 1, q, i, n, hf, hn, hex => by
    simp only [siftDownAux]
    split
    case isTrue h1 =>
      set c := if 2 * i + 2 < n then
          (if dueAt q (2 * i + 2) ≤ dueAt q (2 * i + 1) then 2 * i + 2
           else 2 * i + 1)
        else 2 * i + 1 with hc
      have hcn : c < n := by
        rw [hc]; split
        · split <;> omega
        · omega
      have hic : i < c := by
        rw [hc]; split
        · split <;> omega
        · omega
      have hcleft : dueAt q c ≤ dueAt q (2 * i + 1) := by
        rw [hc]; split
        · split
          case isTrue h => exact h
          case isFalse => exact le_refl _
        · exact le_refl _
      have hcright : 2 * i + 2 < n → dueAt q c ≤ dueAt q (2 * i + 2) := by
        intro hr
        rw [hc, if_pos hr]
        split
        case isTrue => exact le_refl _
        case isFalse h => exact le_of_not_le h
      have hcpar : (c - 1) / 2 = i := by
        rw [hc]; split
        · split <;> omega
        · omega
      by_cases hlt : dueAt q c < dueAt q i
      · rw [if_pos hlt]
        refine siftDownAux_heap fuel _ c n (by omega)
          (by rw [length_swapL]; exact hn) ?_
        have d_i : dueAt (swapL q i c) i = dueAt q c :=
          dueAt_congr (entryAt_swapL_fst q i c (by omega) (by omega))
        have d_c : dueAt (swapL q i c) c = dueAt q i :=
          dueAt_congr (entryAt_swapL_snd q i c (by omega))
        have d_o : ∀ k, k ≠ i → k ≠ c → dueAt (swapL q i c) k = dueAt q k :=
          fun k h1 h2 => dueAt_congr (entryAt_swapL_other q i c k h1 h2)
        constructor
        · intro j hj hpos hjc
          by_cases hji : j = c
          · subst hji
            rw [hcpar, d_i, d_c]
            exact le_of_lt hlt
          · by_cases hjj : j = i
            · subst hjj
              rw [d_i, d_o _ (by omega) (by omega)]
              exact hex.2 hpos c hcn hcpar
            · rw [d_o j hjj hji]
              by_cases hpj : (j - 1) / 2 = i
              · rw [hpj, d_i]
                have hsib : j = 2 * i + 1 ∨ j = 2 * i + 2 := by omega
                rcases hsib with h | h
                · rw [h]; exact hcleft
                · rw [h]; exact hcright (h ▸ hj)
              · rw [d_o _ hpj hjc]
                exact hex.1 j hj hpos hpj
        · intro hc0 cc hcc hccp
          rw [hcpar, d_i]
          have hccne_i : cc ≠ i := by omega
          have hccne_c : cc ≠ c := by omega
          rw [d_o cc hccne_i hccne_c]
          have h3 := hex.1 cc hcc (by omega) (by omega)
          rw [hccp] at h3
          exact h3
      · rw [if_neg hlt]
        intro j hj hpos
        by_cases hpj : (j - 1) / 2 = i
        · rw [hpj]
          have hle : dueAt q i ≤ dueAt q c := le_of_not_lt hlt
          have hsib : j = 2 * i + 1 ∨ j = 2 * i + 2 := by omega
          rcases hsib with h | h
          · rw [h]; exact le_trans hle hcleft
          · rw [h]; exact le_trans hle (hcright (h ▸ hj))
        · exact hex.1 j hj hpos hpj
    case isFalse h1 =>
      intro j hj hpos
      refine hex.1 j hj hpos (by omega)

/-! #### pop_heap, pop_back and the removal path -/

theorem popHeapQ_length (q : List TaskE) : (popHeapQ q).length = q.length := by
  rw [popHeapQ]
  split
  · rfl
  · rw [siftDownAux_length, length_swapL]

theorem popHeapQ_perm (q : List TaskE) : (popHeapQ q).Perm q := by
  rw [popHeapQ]
  split
  · exact List.Perm.refl q
  case isFalse h =>
    refine (siftDownAux_perm _ _ 0 (q.length - 1)
      (by rw [length_swapL]; omega)).trans ?_
    exact swapL_perm q 0 (q.length - 1) (by omega) (by omega) (by omega)

theorem popHeapQ_back (q : List TaskE) (h : q ≠ []) :
    entryAt (popHeapQ q) (q.length - 1) = entryAt q 0 := by
  have hlen : 0 < q.length := List.length_pos.2 h
  rw [popHeapQ]
  split
  case isTrue h1 =>
    have : q.length = 1 := by omega
    rw [this]
  case isFalse h1 =>
    rw [siftDownAux_entryAt_ge _ _ 0 (q.length - 1) (q.length - 1)
        (le_refl _) (by omega),
      entryAt_swapL_snd q 0 (q.length - 1) (by omega)]

theorem heapRootMin (q : List TaskE) (hq : IsMinHeap q) :
    ∀ k, k < q.length → dueAt q 0 ≤ dueAt q k := by
  intro k
  induction k using Nat.strong_induction_on with
  | _ k ih =>
    intro hk
    rcases Nat.eq_zero_or_pos k with h0 | hpos
    · subst h0; exact le_refl _
    · exact le_trans (ih ((k - 1) / 2) (by omega) (by omega)) (hq k hk hpos)

theorem popHeapQ_prefix_heap (q : List TaskE) (hq : IsMinHeap q) :
    PrefixMinHeap (popHeapQ q) (q.length - 1) := by
  rw [popHeapQ]
  split
  case isTrue h1 =>
    intro j hj hpos
    omega
  case isFalse h1 =>
    refine siftDownAux_heap _ _ 0 (q.length - 1) (le_refl _)
      (by rw [length_swapL]; omega) ?_
    constructor
    · intro j hj hpos hpj
      have hne1 : j ≠ 0 := by omega
      have hne2 : j ≠ q.length - 1 := by omega
      have hpne1 : (j - 1) / 2 ≠ 0 := hpj
      have hpne2 : (j - 1) / 2 ≠ q.length - 1 := by omega
      rw [dueAt_congr (entryAt_swapL_other q 0 (q.length - 1) j hne1 hne2),
        dueAt_congr (entryAt_swapL_other q 0 (q.length - 1) _ hpne1 hpne2)]
      exact hq j (by omega) hpos
    · intro h0
      omega

theorem entryAt_dropLast (l : List TaskE) (k : ℕ) (h : k < l.length - 1) :
    entryAt l.dropLast k = entryAt l k := by
  simp [entryAt, List.getD_eq_getElem?_getD, List.getElem?_dropLast, if_pos h]

theorem isMinHeap_dropLast (l : List TaskE)
    (h : PrefixMinHeap l (l.length - 1)) : IsMinHeap l.dropLast := by
  intro j hj hpos
  rw [List.length_dropLast] at hj
  rw [dueAt_congr (entryAt_dropLast l j hj),
    dueAt_congr (entryAt_dropLast l ((j - 1) / 2) (by omega))]
  exact h j hj hpos

/-- Heap preservation through the full FetchTask pop (std::pop_heap followed
by pop_back). -/
theorem popBack_heap (q : List TaskE) (hq : IsMinHeap q) :
    IsMinHeap (popHeapQ q).dropLast := by
  refine isMinHeap_dropLast _ ?_
  rw [popHeapQ_length]
  exact popHeapQ_prefix_heap q hq

/-- The FetchTask pop hands back exactly the front task and leaves the rest
of the queue, as a multiset. -/
theorem popBack_perm (q : List TaskE) (h : q ≠ []) :
    (entryAt q 0 :: (popHeapQ q).dropLast).Perm q := by
  have hne : popHeapQ q ≠ [] := by
    intro hc
    have := popHeapQ_length q
    rw [hc] at this
    exact h (List.length_eq_zero.1 (by simpa using this.symm))
  have hsplit : (popHeapQ q).dropLast ++ [(popHeapQ q).getLast hne] = popHeapQ q :=
    List.dropLast_concat_getLast hne
  have hback : (popHeapQ q).getLast hne = entryAt q 0 := by
    rw [List.getLast_eq_getElem]
    have hlt : (popHeapQ q).length - 1 < (popHeapQ q).length := by
      have := popHeapQ_length q
      have hpos : 0 < q.length := List.length_pos.2 h
      omega
    rw [← entryAt_eq_getElem _ _ hlt, popHeapQ_length, popHeapQ_back q h]
  have hp1 : (entryAt q 0 :: (popHeapQ q).dropLast).Perm
      ((popHeapQ q).dropLast ++ [entryAt q 0]) :=
    (List.perm_append_singleton _ _).symm
  have hp2 : ((popHeapQ q).dropLast ++ [(popHeapQ q).getLast hne]).Perm q := by
    rw [hsplit]; exact popHeapQ_perm q
  rw [hback] at hp2
  exact hp1.trans hp2

theorem cancelRemove_heap (q : List TaskE) (i : ℕ) (hq : IsMinHeap q)
    (hi : i < q.length) : IsMinHeap (cancelRemove q i) := by
  rw [cancelRemove]
  refine popBack_heap _ ?_
  rw [siftUp]
  refine siftUpAux_heap i _ i (le_refl _) (by simpa using hi) ?_
  exact upHeapExcept_set_bot q i _ rfl hq hi

theorem cancelRemove_perm (q : List TaskE) (i : ℕ) (hq : IsMinHeap q)
    (hi : i < q.length)
    (hbot : ∀ k, k < q.length → k ≠ i → dueAt q k ≠ ⊥) :
    (cancelRemove q i).Perm (q.eraseIdx i) := by
  obtain ⟨v, hv⟩ : ∃ v : TaskE, v = ((entryAt q i).1, ⊥) := ⟨_, rfl⟩
  obtain ⟨q1, hq1⟩ : ∃ q1, q1 = q.set i v := ⟨_, rfl⟩
  obtain ⟨q2, hq2⟩ : ∃ q2, q2 = siftUp q1 i := ⟨_, rfl⟩
  have hvbot : v.2 = ⊥ := by rw [hv]
  have hlen1 : q1.length = q.length := by rw [hq1]; simp
  have hlen2 : q2.length = q.length := by
    rw [hq2, siftUp, siftUpAux_length, hlen1]
  have hq2heap : IsMinHeap q2 := by
    rw [hq2, siftUp]
    refine siftUpAux_heap i _ i (le_refl _) (by omega) ?_
    rw [hq1]
    exact upHeapExcept_set_bot q i v hvbot hq hi
  have hq2perm : q2.Perm q1 := by
    rw [hq2, siftUp]
    exact siftUpAux_perm i q1 i (by omega)
  have hq2ne : q2 ≠ [] := by
    intro hc
    rw [hc] at hlen2
    simp at hlen2
    omega
  have hilen1 : i < q1.length := by omega
  have hvq1 : entryAt q1 i = v := by
    rw [hq1]
    exact entryAt_set_self q i v hi
  have hvmem : v ∈ q2 := by
    refine hq2perm.mem_iff.2 ?_
    rw [← hvq1, entryAt_eq_getElem q1 i hilen1]
    exact List.getElem_mem hilen1
  have hrootbot : dueAt q2 0 = ⊥ := by
    obtain ⟨k, hk, hkv⟩ := List.getElem_of_mem hvmem
    have h1 : dueAt q2 0 ≤ dueAt q2 k := heapRootMin q2 hq2heap k hk
    have h2 : dueAt q2 k = ⊥ := by
      show (entryAt q2 k).2 = ⊥
      rw [entryAt_eq_getElem q2 k hk, hkv, hvbot]
    rw [h2] at h1
    exact le_bot_iff.1 h1
  have hroot : entryAt q2 0 = v := by
    have hmem0 : entryAt q2 0 ∈ q2 := by
      rw [entryAt_eq_getElem q2 0 (by omega)]
      exact List.getElem_mem _
    obtain ⟨m, hm, hmr⟩ := List.getElem_of_mem (hq2perm.mem_iff.1 hmem0)
    have hmr2 : entryAt q1 m = entryAt q2 0 := by
      rw [entryAt_eq_getElem q1 m hm]
      exact hmr
    by_cases hmi : m = i
    · subst hmi
      rw [← hmr2, hvq1]
    · have hmq : entryAt q1 m = entryAt q m := by
        rw [hq1]
        exact entryAt_set_ne q i m v (Ne.symm hmi)
      have hd : dueAt q m = ⊥ := by
        have h5 : entryAt q m = entryAt q2 0 := by
          rw [← hmq, hmr2]
        show (entryAt q m).2 = ⊥
        rw [h5]
        exact hrootbot
      exact absurd hd (hbot m (by omega) hmi)
  have hback := popBack_perm q2 hq2ne
  rw [hroot] at hback
  have hq1perm : q1.Perm (v :: q.eraseIdx i) := by
    rw [hq1, List.set_eq_take_cons_drop v hi, List.eraseIdx_eq_take_drop_succ]
    exact List.perm_middle
  have hchain : (v :: (popHeapQ q2).dropLast).Perm (v :: q.eraseIdx i) :=
    (hback.trans hq2perm).trans hq1perm
  have := hchain.cons_inv
  rw [cancelRemove]
  rw [hq2, hq1, hv] at this
  exact this

/-! #### Claim C5: heap preservation and exact removal -/

/-- Counterexample to Claim C5 as stated.  The queue [(1, -inf), (2, 5)] is
a valid min-heap, reachable by ScheduleAt(callback, absl::InfinitePast())
followed by a normal schedule.  Cancelling the task at slot 1 (handle 2)
sets its due time to -inf; the sift-up stops below the root because the
comparator's strict > sees a tie between the two -inf keys, so the
following pop-min removes the OTHER task: the result keeps handle 2 (the
cancelled task, now with due time -inf and erased from the registry) and
drops handle 1 instead of being the removal of slot 1. -/
theorem c5_counterexample_infinite_past :
    IsMinHeap [((1 : ℕ), (⊥ : ETime)), (2, ((5 : ℤ) : ETime))] ∧
      (entryAt [((1 : ℕ), (⊥ : ETime)), (2, ((5 : ℤ) : ETime))] 1).1 = 2 ∧
      cancelRemove [((1 : ℕ), (⊥ : ETime)), (2, ((5 : ℤ) : ETime))] 1
        = [(2, (⊥ : ETime))] ∧
      ¬ (cancelRemove [((1 : ℕ), (⊥ : ETime)), (2, ((5 : ℤ) : ETime))] 1).Perm
          (List.eraseIdx [((1 : ℕ), (⊥ : ETime)), (2, ((5 : ℤ) : ETime))] 1) := by
  exact ⟨by decide, by decide, by decide, by decide⟩

/-- Claim C5 (amended): ScheduleInternal's push, FetchTask's pop and
periodic re-push, and CancelInternal's removal all preserve the min-heap
property on due times; and CancelInternal's removal removes exactly the
cancelled task (leaving every other task's queue membership unchanged,
stated as a multiset identity) provided no other queued task has due time
-infinity. -/
theorem c5_queue_mutations (q : List TaskE) (t : TaskE) (i : ℕ)
    (hq : IsMinHeap q) :
    (IsMinHeap (pushQ q t) ∧ (pushQ q t).Perm (t :: q)) ∧
      (q ≠ [] → IsMinHeap ((popHeapQ q).dropLast) ∧
        (entryAt q 0 :: (popHeapQ q).dropLast).Perm q) ∧
      (i < q.length → IsMinHeap (cancelRemove q i) ∧
        ((∀ k, k < q.length → k ≠ i → dueAt q k ≠ ⊥) →
          (cancelRemove q i).Perm (q.eraseIdx i))) := by
  refine ⟨⟨pushQ_heap q t hq, pushQ_perm q t⟩, ?_, ?_⟩
  · intro hne
    exact ⟨popBack_heap q hq, popBack_perm q hne⟩
  · intro hi
    exact ⟨cancelRemove_heap q i hq hi,
      fun hbot => cancelRemove_perm q i hq hi hbot⟩

/-- Witness for Claim C5 on the concrete heap [(1, 3), (2, 7)], pushing
(3, 5) and cancelling slot 0. -/
theorem c5_queue_mutations_witness :
    IsMinHeap [((1 : ℕ), ((3 : ℤ) : ETime)), (2, ((7 : ℤ) : ETime))] ∧
      ((IsMinHeap (pushQ [((1 : ℕ), ((3 : ℤ) : ETime)), (2, ((7 : ℤ) : ETime))]
          (3, ((5 : ℤ) : ETime))) ∧
        (pushQ [((1 : ℕ), ((3 : ℤ) : ETime)), (2, ((7 : ℤ) : ETime))]
          (3, ((5 : ℤ) : ETime))).Perm
          ((3, ((5 : ℤ) : ETime)) :: [((1 : ℕ), ((3 : ℤ) : ETime)), (2, ((7 : ℤ) : ETime))])) ∧
      ([((1 : ℕ), ((3 : ℤ) : ETime)), (2, ((7 : ℤ) : ETime))] ≠ [] →
        IsMinHeap ((popHeapQ [((1 : ℕ), ((3 : ℤ) : ETime)), (2, ((7 : ℤ) : ETime))]).dropLast) ∧
        (entryAt [((1 : ℕ), ((3 : ℤ) : ETime)), (2, ((7 : ℤ) : ETime))] 0 ::
          (popHeapQ [((1 : ℕ), ((3 : ℤ) : ETime)), (2, ((7 : ℤ) : ETime))]).dropLast).Perm
          [((1 : ℕ), ((3 : ℤ) : ETime)), (2, ((7 : ℤ) : ETime))]) ∧
      (0 < ([((1 : ℕ), ((3 : ℤ) : ETime)), (2, ((7 : ℤ) : ETime))] : List TaskE).length →
        IsMinHeap (cancelRemove [((1 : ℕ), ((3 : ℤ) : ETime)), (2, ((7 : ℤ) : ETime))] 0) ∧
        ((∀ k, k < ([((1 : ℕ), ((3 : ℤ) : ETime)), (2, ((7 : ℤ) : ETime))] : List TaskE).length →
            k ≠ 0 → dueAt [((1 : ℕ), ((3 : ℤ) : ETime)), (2, ((7 : ℤ) : ETime))] k ≠ ⊥) →
          (cancelRemove [((1 : ℕ), ((3 : ℤ) : ETime)), (2, ((7 : ℤ) : ETime))] 0).Perm
            (List.eraseIdx [((1 : ℕ), ((3 : ℤ) : ETime)), (2, ((7 : ℤ) : ETime))] 0)))) :=
  ⟨by decide,
    c5_queue_mutations [((1 : ℕ), ((3 : ℤ) : ETime)), (2, ((7 : ℤ) : ETime))]
      (3, ((5 : ℤ) : ETime)) 0 (by decide)⟩

/-! ### Interleaving model of the running scheduler (common/scheduler.cc)

A small-step model of one scheduler in state STARTED with a single worker
and a MockClock, sufficient for the temporal claims.  Each step is one
critical section under the scheduler mutex, exactly as the source performs
it:

* schedule: ScheduleInternal — registry insert, heap push, and the
  conditional flag update (if (!task_due_) task_due_ = due <= now);
* cancelQueued / cancelRunning: the two live branches of CancelInternal;
* advance: MockClock::AdvanceTime plus the worker's listener callback (the
  listener set is swapped out, so the cached time of the waiting worker is
  updated only while its listener is still registered);
* beginWait: the worker passes the queue-not-empty await of FetchTask and
  enters clock->AwaitWithDeadline, capturing the deadline from the head
  due time at that moment and registering its listener with the cached
  current time;
* wakeOk / wakeSkip: the await condition (cached time at or past the
  captured deadline, or task_due_) holds, so the worker resumes, pops the
  heap (the source would invoke undefined behaviour if the queue had been
  emptied meanwhile; the model requires it non-empty), recomputes
  task_due_, and returns the task (wakeOk) or erases a cancelled task and
  loops (wakeSkip).

Stop/Start transitions and further workers are not modelled: the claims
under test quantify over schedule, cancel and time-advance interleavings
of a started scheduler. -/

/-- Position of the single worker inside its FetchTask call. -/
inductive WPhase
  | idle
  | waiting (deadline : ETime)
  | fetched (t : TaskE)
deriving DecidableEq

/-- One scheduler plus mock clock plus worker-local state. -/
structure SchedSt where
  now : ℤ
  queue : List TaskE
  registry : List ℕ
  cancelledH : List ℕ
  taskDue : Bool
  phase : WPhase
  obs : ℤ
  listenerOn : Bool
deriving DecidableEq

/-- ScheduleInternal: emplace into the registry, push onto the heap, and
upgrade the cached flag with the new task's due-ness (the code only writes
the flag when it was false, which is the boolean or). -/
def scheduleEff (s : SchedSt) (h : ℕ) (d : ETime) : SchedSt :=
  { s with queue := pushQ s.queue (h, d),
           registry := h :: s.registry,
           taskDue := s.taskDue || decide (d ≤ ((s.now : ℤ) : ETime)) }

/-- CancelInternal on a still-queued task (backlink at slot i): set the
cancelled flag, remove via the -infinity sift-up and pop, erase from the
registry, recompute the flag. -/
def cancelQueuedEff (s : SchedSt) (h : ℕ) (i : ℕ) : SchedSt :=
  { s with cancelledH := h :: s.cancelledH,
           queue := cancelRemove s.queue i,
           registry := s.registry.erase h,
           taskDue := isTaskDueM (cancelRemove s.queue i) (h :: s.cancelledH) s.now }

/-- CancelInternal on a task whose backlink is null (being executed): only
the cancelled flag is set. -/
def cancelRunningEff (s : SchedSt) (h : ℕ) : SchedSt :=
  { s with cancelledH := h :: s.cancelledH }

/-- MockClock::AdvanceTime plus the notification round: the worker's cached
time is updated only if its listener is still registered, and the swap
leaves no listener registered afterwards. -/
def advanceEff (s : SchedSt) (d : ℤ) : SchedSt :=
  { s with now := s.now + d,
           obs := if s.listenerOn then s.now + d else s.obs,
           listenerOn := false }

/-- Entry into the deadline wait of FetchTask: the deadline is the head due
time captured now, the listener is registered, and the cached time starts
at the current virtual time. -/
def beginWaitEff (s : SchedSt) : SchedSt :=
  { s with phase := .waiting (dueAt s.queue 0),
           obs := s.now,
           listenerOn := true }

/-- The queue and flag effect of the pop in FetchTask: std::pop_heap,
back(), pop_back(), task_due_ = is_task_due(). -/
def wakePop (s : SchedSt) : TaskE × List TaskE :=
  (entryAt (popHeapQ s.queue) ((popHeapQ s.queue).length - 1),
   (popHeapQ s.queue).dropLast)

/-- FetchTask resumes and returns the popped (non-cancelled) task. -/
def wakeOkEff (s : SchedSt) : SchedSt :=
  { s with queue := (wakePop s).2,
           taskDue := isTaskDueM (wakePop s).2 s.cancelledH s.now,
           listenerOn := false,
           phase := .fetched (wakePop s).1 }

/-- FetchTask resumes, pops a cancelled task, erases it and loops back to
the waits. -/
def wakeSkipEff (s : SchedSt) : SchedSt :=
  { s with queue := (wakePop s).2,
           taskDue := isTaskDueM (wakePop s).2 s.cancelledH s.now,
           listenerOn := false,
           registry := s.registry.erase (wakePop s).1.1,
           phase := .idle }

/-- The re-arm at the head of the next FetchTask call (the worker passes
the task it just ran back as last_task): a finished periodic task with
period p that was not cancelled has its due time advanced to
due + max(absl::Ceil(now - due, p), p) — nextDueTime of claim C1, modelled
for finite old due times d — is pushed back with std::push_heap, and the
flag is recomputed: task_due_ = is_task_due().  The worker then proceeds
to the waits (phase idle). -/
def requeueEff (s : SchedSt) (t : TaskE) (d p : ℤ) : SchedSt :=
  { s with queue := pushQ s.queue (t.1, ((nextDueTime d p s.now : ℤ) : ETime)),
           taskDue := isTaskDueM (pushQ s.queue (t.1, ((nextDueTime d p s.now : ℤ) : ETime)))
             s.cancelledH s.now,
           phase := .idle }

/-- The else branch of the same code: a finished task that is cancelled or
one-shot is erased from the registry and not re-queued; queue and flag are
untouched. -/
def finishTaskEff (s : SchedSt) (t : TaskE) : SchedSt :=
  { s with registry := s.registry.erase t.1, phase := .idle }

/-- One mutex-held critical section of the scheduler, as the source
performs it.  The model does not track which tasks are periodic, so for a
finished non-cancelled task the periodic branch (requeue, with its period
carried by the constructor) and the one-shot branch (finishTask) are
nondeterministic alternatives. -/
inductive Step : SchedSt → SchedSt → Prop
  | schedule (s : SchedSt) (h : ℕ) (d : ETime) :
      h ∉ s.registry → Step s (scheduleEff s h d)
  | cancelQueued (s : SchedSt) (h : ℕ) (i : ℕ) :
      h ∈ s.registry → i < s.queue.length → (entryAt s.queue i).1 = h →
      Step s (cancelQueuedEff s h i)
  | cancelRunning (s : SchedSt) (h : ℕ) :
      h ∈ s.registry → (∀ e ∈ s.queue, e.1 ≠ h) →
      Step s (cancelRunningEff s h)
  | advance (s : SchedSt) (d : ℤ) : Step s (advanceEff s d)
  | beginWait (s : SchedSt) :
      s.phase = .idle → s.queue ≠ [] → Step s (beginWaitEff s)
  | wakeOk (s : SchedSt) (dl : ETime) :
      s.phase = .waiting dl →
      (dl ≤ ((s.obs : ℤ) : ETime) ∨ s.taskDue = true) →
      s.queue ≠ [] →
      (wakePop s).1.1 ∉ s.cancelledH →
      Step s (wakeOkEff s)
  | wakeSkip (s : SchedSt) (dl : ETime) :
      s.phase = .waiting dl →
      (dl ≤ ((s.obs : ℤ) : ETime) ∨ s.taskDue = true) →
      s.queue ≠ [] →
      (wakePop s).1.1 ∈ s.cancelledH →
      Step s (wakeSkipEff s)
  | requeue (s : SchedSt) (t : TaskE) (d p : ℤ) :
      s.phase = .fetched t → t.1 ∉ s.cancelledH → t.2 = ((d : ℤ) : ETime) →
      Step s (requeueEff s t d p)
  | finishTask (s : SchedSt) (t : TaskE) :
      s.phase = .fetched t → Step s (finishTaskEff s t)

/-- Reachability under the interleaving semantics. -/
def Reach : SchedSt → SchedSt → Prop := Relation.ReflTransGen Step

/-- The property Claim C2 asserts of every reachable state: a task just
returned by FetchTask is due (clock at or past its due time). -/
def fetchedOnTime (s : SchedSt) : Bool :=
  match s.phase with
  | .fetched t => decide (t.2 ≤ ((s.now : ℤ) : ETime))
  | _ => true

/-! #### Claim C2: tasks never start before their due time -/

/-- Start state: virtual time 0, empty scheduler, worker idle. -/
def c2s0 : SchedSt :=
  { now := 0, queue := [], registry := [], cancelledH := [], taskDue := false,
    phase := .idle, obs := 0, listenerOn := false }

def c2s1 : SchedSt :=
  { c2s0 with queue := [(1, ((10 : ℤ) : ETime))], registry := [1] }

def c2s2 : SchedSt :=
  { c2s1 with queue := [(1, ((10 : ℤ) : ETime)), (2, ((100 : ℤ) : ETime))],
              registry := [2, 1] }

def c2s3 : SchedSt :=
  { c2s2 with phase := .waiting ((10 : ℤ) : ETime), obs := 0, listenerOn := true }

def c2s4 : SchedSt := { c2s3 with now := 10, obs := 10, listenerOn := false }

def c2s5 : SchedSt :=
  { c2s4 with queue := [(2, ((100 : ℤ) : ETime))], registry := [2],
              cancelledH := [1] }

def c2s6 : SchedSt :=
  { c2s5 with queue := [], phase := .fetched (2, ((100 : ℤ) : ETime)) }

/-- Failing evaluation for Claim C2.  Schedule task 1 due at 10 and task 2
due at 100; the worker begins the deadline wait keyed to the then-head
(task 1, deadline 10); time advances to 10; task 1 is cancelled (removing
it from the queue and leaving task 2, due 100, at the head); the worker's
await condition still holds (its cached time 10 has reached the captured
deadline 10), so it resumes, pops the head and FetchTask returns task 2 at
virtual time 10, ninety time units before that task's due time.  The
deadline was a captured constant and nothing restarted the wait when the
head changed, exactly the hazard the spec warns against. -/
theorem c2_early_fetch_counterexample :
    Reach c2s0 c2s6 ∧ c2s6.phase = .fetched (2, ((100 : ℤ) : ETime)) ∧
      fetchedOnTime c2s6 = false := by
  refine ⟨?_, by decide, by decide⟩
  have h01 : Step c2s0 c2s1 := by
    have he : scheduleEff c2s0 1 ((10 : ℤ) : ETime) = c2s1 := by decide
    exact he ▸ Step.schedule c2s0 1 ((10 : ℤ) : ETime) (by decide)
  have h12 : Step c2s1 c2s2 := by
    have he : scheduleEff c2s1 2 ((100 : ℤ) : ETime) = c2s2 := by decide
    exact he ▸ Step.schedule c2s1 2 ((100 : ℤ) : ETime) (by decide)
  have h23 : Step c2s2 c2s3 := by
    have he : beginWaitEff c2s2 = c2s3 := by decide
    exact he ▸ Step.beginWait c2s2 (by decide) (by decide)
  have h34 : Step c2s3 c2s4 := by
    have he : advanceEff c2s3 10 = c2s4 := by decide
    exact he ▸ Step.advance c2s3 10
  have h45 : Step c2s4 c2s5 := by
    have he : cancelQueuedEff c2s4 1 0 = c2s5 := by decide
    exact he ▸ Step.cancelQueued c2s4 1 0 (by decide) (by decide) (by decide)
  have h56 : Step c2s5 c2s6 := by
    have he : wakeOkEff c2s5 = c2s6 := by decide
    exact he ▸ Step.wakeOk c2s5 ((10 : ℤ) : ETime) (by decide)
      (Or.inl (by decide)) (by decide) (by decide)
  exact ((((Relation.ReflTransGen.refl.tail h01).tail h12).tail h23).tail
    h34).tail h45 |>.tail h56

/-! #### Claim C8: the cached event-due flag after queue mutations -/

theorem isTaskDueM_iff (q : List TaskE) (c : List ℕ) (n : ℤ) :
    isTaskDueM q c n = true ↔
      q ≠ [] ∧ (entryAt q 0).1 ∉ c ∧ (entryAt q 0).2 ≤ ((n : ℤ) : ETime) := by
  cases q with
  | nil => simp [isTaskDueM]
  | cons x r =>
    show (!(decide (x.1 ∈ c)) && decide (x.2 ≤ ((n : ℤ) : ETime))) = true ↔ _
    have hx : entryAt (x :: r) 0 = x := rfl
    rw [hx]
    simp

theorem heap_root_le_of_mem (q : List TaskE) (hq : IsMinHeap q) (t : TaskE)
    (ht : t ∈ q) : dueAt q 0 ≤ t.2 := by
  obtain ⟨k, hk, hkt⟩ := List.getElem_of_mem ht
  have h1 := heapRootMin q hq k hk
  have h2 : dueAt q k = t.2 := by
    rw [dueAt, entryAt_eq_getElem q k hk, hkt]
  rw [h2] at h1
  exact h1

/-- Claim C8 (amended): after CancelInternal's removal, after FetchTask's
pop (both the returning and the cancelled-skip path), and after FetchTask's
periodic re-push, the cached flag equals is_task_due() exactly, because
those paths recompute it; after ScheduleInternal the flag is only
upgraded — the new value is the old flag or the new task's due-ness —
which keeps the flag sound (flag true implies the head really is due and
not cancelled) but not complete: an already queued task whose due time has
meanwhile been passed by the clock leaves the flag stale at false. -/
theorem c8_flag_vs_is_task_due (s : SchedSt) (h : ℕ) (d : ETime) (i : ℕ)
    (t : TaskE) (dd p : ℤ)
    (hheap : IsMinHeap s.queue)
    (hsound : s.taskDue = true → isTaskDueM s.queue s.cancelledH s.now = true)
    (hqnc : ∀ e ∈ s.queue, e.1 ∉ s.cancelledH)
    (hhnc : h ∉ s.cancelledH) :
    ((cancelQueuedEff s h i).taskDue
        = isTaskDueM (cancelQueuedEff s h i).queue (cancelQueuedEff s h i).cancelledH
            (cancelQueuedEff s h i).now) ∧
      ((wakeOkEff s).taskDue
        = isTaskDueM (wakeOkEff s).queue (wakeOkEff s).cancelledH (wakeOkEff s).now) ∧
      ((wakeSkipEff s).taskDue
        = isTaskDueM (wakeSkipEff s).queue (wakeSkipEff s).cancelledH (wakeSkipEff s).now) ∧
      ((requeueEff s t dd p).taskDue
        = isTaskDueM (requeueEff s t dd p).queue (requeueEff s t dd p).cancelledH
            (requeueEff s t dd p).now) ∧
      ((scheduleEff s h d).taskDue
        = (s.taskDue || decide (d ≤ ((s.now : ℤ) : ETime)))) ∧
      ((scheduleEff s h d).taskDue = true →
        isTaskDueM (scheduleEff s h d).queue (scheduleEff s h d).cancelledH
          (scheduleEff s h d).now = true) := by
  refine ⟨rfl, rfl, rfl, rfl, rfl, ?_⟩
  intro hflag
  have hq' : (scheduleEff s h d).queue = pushQ s.queue (h, d) := rfl
  have hperm : (pushQ s.queue (h, d)).Perm ((h, d) :: s.queue) := pushQ_perm _ _
  have hne : pushQ s.queue (h, d) ≠ [] := by
    intro hc
    have := pushQ_length s.queue (h, d)
    rw [hc] at this
    simp at this
  have hheap' : IsMinHeap (pushQ s.queue (h, d)) := pushQ_heap _ _ hheap
  have hhead_mem : entryAt (pushQ s.queue (h, d)) 0 ∈ (h, d) :: s.queue := by
    refine hperm.mem_iff.1 ?_
    rw [entryAt_eq_getElem _ 0 (by rw [pushQ_length]; omega)]
    exact List.getElem_mem _
  have hhead_nc : (entryAt (pushQ s.queue (h, d)) 0).1 ∉ s.cancelledH := by
    rcases List.mem_cons.1 hhead_mem with hh | hh
    · rw [hh]; exact hhnc
    · exact hqnc _ hh
  rw [isTaskDueM_iff]
  refine ⟨hne, hhead_nc, ?_⟩
  have hor : s.taskDue = true ∨ (d ≤ ((s.now : ℤ) : ETime)) := by
    have : (s.taskDue || decide (d ≤ ((s.now : ℤ) : ETime))) = true := hflag
    rcases Bool.or_eq_true_iff.1 this with h1 | h1
    · exact Or.inl h1
    · exact Or.inr (of_decide_eq_true h1)
  rcases hor with hflag0 | hdle
  · obtain ⟨hne0, -, hdue0⟩ := (isTaskDueM_iff _ _ _).1 (hsound hflag0)
    have hmem0 : entryAt s.queue 0 ∈ s.queue := by
      rw [entryAt_eq_getElem _ 0 (by
        cases hq : s.queue with
        | nil => exact absurd hq hne0
        | cons a r => simp)]
      exact List.getElem_mem _
    have hroot := heap_root_le_of_mem (pushQ s.queue (h, d)) hheap'
      (entryAt s.queue 0) (hperm.mem_iff.2 (List.mem_cons_of_mem _ hmem0))
    exact le_trans hroot hdue0
  · have hroot := heap_root_le_of_mem (pushQ s.queue (h, d)) hheap'
      (h, d) (hperm.mem_iff.2 (List.mem_cons_self _ _))
    exact le_trans hroot hdle

/-- Witness for the amended Claim C8: at virtual time 10 with the queue
holding task 1 due at 5 and the flag correctly true, scheduling task 2 due
at 20 keeps the flag true and the head really is due. -/
theorem c8_flag_vs_is_task_due_witness :
    (IsMinHeap (SchedSt.mk 10 [((1 : ℕ), ((5 : ℤ) : ETime))] [1] [] true .idle 0 false).queue) ∧
      (((SchedSt.mk 10 [((1 : ℕ), ((5 : ℤ) : ETime))] [1] [] true .idle 0 false).taskDue = true →
        isTaskDueM [((1 : ℕ), ((5 : ℤ) : ETime))] [] 10 = true)) ∧
      ((scheduleEff (SchedSt.mk 10 [((1 : ℕ), ((5 : ℤ) : ETime))] [1] [] true .idle 0 false)
          2 ((20 : ℤ) : ETime)).taskDue = true →
        isTaskDueM (scheduleEff (SchedSt.mk 10 [((1 : ℕ), ((5 : ℤ) : ETime))] [1] [] true .idle 0 false)
            2 ((20 : ℤ) : ETime)).queue
          (scheduleEff (SchedSt.mk 10 [((1 : ℕ), ((5 : ℤ) : ETime))] [1] [] true .idle 0 false)
            2 ((20 : ℤ) : ETime)).cancelledH
          (scheduleEff (SchedSt.mk 10 [((1 : ℕ), ((5 : ℤ) : ETime))] [1] [] true .idle 0 false)
            2 ((20 : ℤ) : ETime)).now = true) :=
  ⟨by decide, by decide,
    (c8_flag_vs_is_task_due
      (SchedSt.mk 10 [((1 : ℕ), ((5 : ℤ) : ETime))] [1] [] true .idle 0 false)
      2 ((20 : ℤ) : ETime) 0 ((3 : ℕ), ((0 : ℤ) : ETime)) 0 1
      (by decide) (by decide) (by decide) (by decide)).2.2.2.2.2⟩

def c8s0 : SchedSt :=
  { now := 0, queue := [], registry := [], cancelledH := [], taskDue := false,
    phase := .idle, obs := 0, listenerOn := false }

def c8s1 : SchedSt := { c8s0 with queue := [(1, ((5 : ℤ) : ETime))], registry := [1] }

def c8s2 : SchedSt := { c8s1 with now := 10 }

def c8s3 : SchedSt :=
  { c8s2 with queue := [(1, ((5 : ℤ) : ETime)), (2, ((20 : ℤ) : ETime))],
              registry := [2, 1] }

/-- Counterexample to Claim C8 as stated.  Schedule task 1 due at 5 while
the clock reads 0 (flag stays false, correctly); advance the clock to 10;
schedule task 2 due at 20.  ScheduleInternal only checks the NEW task's
due time (20 > 10), so the cached flag stays false after this queue
mutation although is_task_due() is true: the head (task 1, due 5, not
cancelled) is overdue at time 10. -/
theorem c8_counterexample_stale_flag :
    Reach c8s0 c8s3 ∧ c8s3 = scheduleEff c8s2 2 ((20 : ℤ) : ETime) ∧
      c8s3.taskDue = false ∧
      isTaskDueM c8s3.queue c8s3.cancelledH c8s3.now = true := by
  refine ⟨?_, by decide, by decide, by decide⟩
  have h01 : Step c8s0 c8s1 := by
    have he : scheduleEff c8s0 1 ((5 : ℤ) : ETime) = c8s1 := by decide
    exact he ▸ Step.schedule c8s0 1 ((5 : ℤ) : ETime) (by decide)
  have h12 : Step c8s1 c8s2 := by
    have he : advanceEff c8s1 10 = c8s2 := by decide
    exact he ▸ Step.advance c8s1 10
  have h23 : Step c8s2 c8s3 := by
    have he : scheduleEff c8s2 2 ((20 : ℤ) : ETime) = c8s3 := by decide
    exact he ▸ Step.schedule c8s2 2 ((20 : ℤ) : ETime) (by decide)
  exact ((Relation.ReflTransGen.refl.tail h01).tail h12).tail h23

/-! ### CancelInternal (common/scheduler.cc) — claim C4

The registry (tasks_, an absl::node_hash_set keyed by handle) is modelled
as a list of task records; lookup is find-by-handle.  CancelInternal looks
the handle up; unknown handles return false unchanged; a found task first
gets its cancelled flag set, then either its queue entry is removed (ref
non-null: returns true) or, with a null backlink, the task is left to the
executing worker (returns false; the blocking variant then awaits the
handle's disappearance from the registry, a wait with no state effect of
its own). -/

structure TaskRec where
  handle : ℕ
  due : ETime
  cancelled : Bool
  ref : Option ℕ
deriving DecidableEq

/-- tasks_.find(handle) on the handle-keyed registry. -/
def lookupTask (ts : List TaskRec) (h : ℕ) : Option TaskRec :=
  ts.find? (fun t => t.handle == h)

/-- task.set_cancelled(true) through the registry. -/
def setCancelledT (ts : List TaskRec) (h : ℕ) : List TaskRec :=
  ts.map (fun t => if t.handle = h then { t with cancelled := true } else t)

/-- tasks_.erase(handle). -/
def eraseTask (ts : List TaskRec) (h : ℕ) : List TaskRec :=
  ts.filter (fun t => !(t.handle == h))

/-- The cancelled handles recorded in the registry (what the queue head's
ref->cancelled() reads come from). -/
def cancelledHandles (ts : List TaskRec) : List ℕ :=
  (ts.filter (fun t => t.cancelled)).map TaskRec.handle

/-- The scheduler state CancelInternal touches. -/
structure CState where
  tasks : List TaskRec
  queue : List TaskE
  taskDue : Bool
  now : ℤ
deriving DecidableEq

/-- Scheduler::CancelInternal.  The blocking flag changes no state: it only
adds the registry-absence await before returning (see
blockingCancelAwaitCond). -/
def cancelInternalFn (s : CState) (h : ℕ) (blocking : Bool) : Bool × CState :=
  match lookupTask s.tasks h with
  | none => (false, s)
  | some t =>
    match t.ref with
    | some i =>
      (true, { s with
        tasks := eraseTask (setCancelledT s.tasks h) h,
        queue := cancelRemove s.queue i,
        taskDue := isTaskDueM (cancelRemove s.queue i)
          (cancelledHandles (eraseTask (setCancelledT s.tasks h) h)) s.now })
    | none => (false, { s with tasks := setCancelledT s.tasks h })

/-- The await predicate of the blocking variant: !tasks_.contains(handle). -/
def blockingCancelAwaitCond (ts : List TaskRec) (h : ℕ) : Bool :=
  !(lookupTask ts h).isSome

/-- The re-queue guard of FetchTask: a finished task is re-armed only when
it is periodic and not cancelled. -/
def requeueKeeps (cancelled periodic : Bool) : Bool := !cancelled && periodic

theorem lookupTask_handle (ts : List TaskRec) (h : ℕ) (t : TaskRec)
    (hl : lookupTask ts h = some t) : t.handle = h := by
  have := List.find?_some hl
  simpa using this

theorem lookup_setCancelledT (ts : List TaskRec) (h : ℕ) :
    lookupTask (setCancelledT ts h) h
      = Option.map (fun t => { t with cancelled := true }) (lookupTask ts h) := by
  induction ts with
  | nil => rfl
  | cons t r ih =>
    by_cases hth : t.handle = h
    · simp [lookupTask, setCancelledT, List.find?, hth]
    · simp only [setCancelledT, List.map_cons, if_neg hth]
      simp only [lookupTask, List.find?] at ih ⊢
      rw [show (t.handle == h) = false by simpa using hth]
      simpa [setCancelledT] using ih

theorem lookup_eraseTask (ts : List TaskRec) (h : ℕ) :
    lookupTask (eraseTask ts h) h = none := by
  induction ts with
  | nil => rfl
  | cons t r ih =>
    by_cases hth : t.handle = h
    · simpa [eraseTask, hth] using ih
    · simp only [eraseTask, List.filter]
      rw [show (!(t.handle == h)) = true by simpa using hth]
      simp only [lookupTask, List.find?]
      rw [show (t.handle == h) = false by simpa using hth]
      simpa [eraseTask] using ih

/-- Well-formedness tying backlinks to queue slots (maintained by the
TaskRef discipline, claim C10). -/
def CWellFormed (s : CState) : Prop :=
  (∀ t ∈ s.tasks, match t.ref with
    | some i => i < s.queue.length ∧ (entryAt s.queue i).1 = t.handle
    | none => ∀ e ∈ s.queue, e.1 ≠ t.handle) ∧
  (∀ e ∈ s.queue, ∃ t ∈ s.tasks, t.handle = e.1)

instance (s : CState) : Decidable (CWellFormed s) := by
  have hd : DecidablePred fun t : TaskRec =>
      match t.ref with
      | some i => i < s.queue.length ∧ (entryAt s.queue i).1 = t.handle
      | none => ∀ e ∈ s.queue, e.1 ≠ t.handle := by
    rintro ⟨th, td, tc, tr⟩
    cases tr <;> (dsimp only; infer_instance)
  unfold CWellFormed
  exact @instDecidableAnd _ _ (@List.decidableBAll _ _ hd s.tasks)
    (@List.decidableBAll _ (fun e : TaskE => ∃ t ∈ s.tasks, t.handle = e.1)
      (fun e => @List.decidableBEx _ (fun t : TaskRec => t.handle = e.1)
        (fun t => instDecidableEqNat t.handle e.1) s.tasks) s.queue)

/-- Claim C4 (amended): return values and effects of Cancel/BlockingCancel.
Cancel returns true iff the handle is still queued (non-null backlink);
it then erases the task from the registry and performs the queue removal,
and that removal takes out exactly the cancelled task's entry — the queue
becomes a permutation of the old queue minus the backlink slot — provided
the queue is a heap and no OTHER queued task has due time -infinity (with
another -infinity entry present the -infinity removal key ties, the
sift-up stops early and pop-min evicts the wrong entry, see
c4_counterexample_infinite_past_cancel); an executing task only gets its
cancelled flag set with false returned; unknown handles return false
unchanged; BlockingCancel returns the same boolean and merely awaits the
handle's absence from the registry. -/
theorem c4_cancel_semantics (s : CState) (h : ℕ) (b : Bool)
    (hwf : CWellFormed s) :
    ((cancelInternalFn s h b).1 = true ↔
      ∃ t, lookupTask s.tasks h = some t ∧ t.ref ≠ none) ∧
    ((cancelInternalFn s h b).1 = true ↔ h ∈ s.queue.map Prod.fst) ∧
    ((cancelInternalFn s h true).1 = (cancelInternalFn s h false).1) ∧
    (lookupTask s.tasks h = none → cancelInternalFn s h b = (false, s)) ∧
    (∀ t, lookupTask s.tasks h = some t → t.ref = none →
      (cancelInternalFn s h b).1 = false ∧
      (cancelInternalFn s h b).2.queue = s.queue ∧
      lookupTask (cancelInternalFn s h b).2.tasks h
        = some { t with cancelled := true }) ∧
    (∀ t i, lookupTask s.tasks h = some t → t.ref = some i →
      (cancelInternalFn s h b).1 = true ∧
      lookupTask (cancelInternalFn s h b).2.tasks h = none ∧
      (cancelInternalFn s h b).2.queue = cancelRemove s.queue i) ∧
    (∀ t i, lookupTask s.tasks h = some t → t.ref = some i →
      IsMinHeap s.queue →
      (∀ k, k < s.queue.length → k ≠ i → dueAt s.queue k ≠ ⊥) →
      ((cancelInternalFn s h b).2.queue).Perm (s.queue.eraseIdx i)) ∧
    (blockingCancelAwaitCond s.tasks h = true ↔ lookupTask s.tasks h = none) ∧
    (∀ p : Bool, requeueKeeps true p = false) := by
  have hmain : ∀ bb : Bool, (cancelInternalFn s h bb).1 = true ↔
      ∃ t, lookupTask s.tasks h = some t ∧ t.ref ≠ none := by
    intro bb
    rw [cancelInternalFn]
    cases hl : lookupTask s.tasks h with
    | none => simp
    | some t =>
      cases hr : t.ref with
      | none => simp [hr]
      | some i => simp [hr]
  refine ⟨hmain b, ?_, ?_, ?_, ?_, ?_, ?_, ?_, ?_⟩
  · rw [hmain b]
    constructor
    · rintro ⟨t, hl, hr⟩
      cases href : t.ref with
      | none => exact absurd href hr
      | some i =>
        have hm := hwf.1 t (List.mem_of_find?_eq_some hl)
        rw [href] at hm
        obtain ⟨hi, hslot⟩ := hm
        have hh := lookupTask_handle s.tasks h t hl
        refine List.mem_map.2 ⟨entryAt s.queue i, ?_, by rw [hslot, hh]⟩
        rw [entryAt_eq_getElem _ _ hi]
        exact List.getElem_mem _
    · intro hmem
      obtain ⟨e, he, hef⟩ := List.mem_map.1 hmem
      obtain ⟨t, ht, hth⟩ := hwf.2 e he
      have hsome : (lookupTask s.tasks h).isSome := by
        rw [lookupTask, List.find?_isSome]
        exact ⟨t, ht, by simpa using (hth.trans hef)⟩
      obtain ⟨t2, hl2⟩ := Option.isSome_iff_exists.1 hsome
      refine ⟨t2, hl2, ?_⟩
      intro hnone
      have hm := hwf.1 t2 (List.mem_of_find?_eq_some hl2)
      rw [hnone] at hm
      have hh2 := lookupTask_handle s.tasks h t2 hl2
      exact hm e he (by rw [hef, hh2])
  · exact Bool.eq_iff_iff.2 ((hmain true).trans (hmain false).symm)
  · intro hl
    simp only [cancelInternalFn, hl]
  · intro t hl hr
    simp only [cancelInternalFn, hl, hr]
    refine ⟨trivial, trivial, ?_⟩
    rw [lookup_setCancelledT, hl]
    simp [hr]
  · intro t i hl hr
    simp only [cancelInternalFn, hl, hr]
    exact ⟨trivial, lookup_eraseTask _ _, trivial⟩
  · intro t i hl hr hheap hbot
    have hm := hwf.1 t (List.mem_of_find?_eq_some hl)
    rw [hr] at hm
    have hq : (cancelInternalFn s h b).2.queue = cancelRemove s.queue i := by
      simp only [cancelInternalFn, hl, hr]
    rw [hq]
    exact cancelRemove_perm s.queue i hheap hm.1 hbot
  · rw [blockingCancelAwaitCond]
    cases hl : lookupTask s.tasks h <;> simp [hl]
  · intro p
    rfl

/-- Concrete well-formed scheduler state refuting Claim C4's removal
clause: task 1 queued at slot 0 with due time -infinity (reachable via
ScheduleAt(absl::InfinitePast())), task 2 queued at slot 1 with due time
5; the queue is a min-heap and the backlinks are consistent. -/
def c4cex : CState :=
  { tasks := [TaskRec.mk 1 (⊥ : ETime) false (some 0),
              TaskRec.mk 2 ((5 : ℤ) : ETime) false (some 1)],
    queue := [(1, (⊥ : ETime)), (2, ((5 : ℤ) : ETime))],
    taskDue := true,
    now := 0 }

/-- Counterexample to Claim C4 as stated: cancelling the queued handle 2
on c4cex returns true and erases task 2 from the registry, but the queue
entry removed is task 1's — the -infinity removal key written into slot 1
ties with task 1's -infinity due time, the sift-up stops early, and
pop-min evicts slot 0.  The result queue is [(2, -infinity)]: the
cancelled handle 2 is still queued (dangling) and is not a permutation of
the queue with slot 1 erased, so Cancel returned true WITHOUT removing
the entry of the task it cancelled. -/
theorem c4_counterexample_infinite_past_cancel :
    CWellFormed c4cex ∧
      IsMinHeap c4cex.queue ∧
      (cancelInternalFn c4cex 2 false).1 = true ∧
      lookupTask (cancelInternalFn c4cex 2 false).2.tasks 2 = none ∧
      (cancelInternalFn c4cex 2 false).2.queue = [(2, (⊥ : ETime))] ∧
      ¬ ((cancelInternalFn c4cex 2 false).2.queue).Perm (c4cex.queue.eraseIdx 1) := by
  refine ⟨by decide, by decide, by decide, by decide, by decide, by decide⟩

/-- Concrete scheduler state for the C4 witness: task 1 queued at slot 0,
task 2 executing (null backlink). -/
def c4wit : CState :=
  { tasks := [TaskRec.mk 1 ((5 : ℤ) : ETime) false (some 0),
              TaskRec.mk 2 ((7 : ℤ) : ETime) false none],
    queue := [(1, ((5 : ℤ) : ETime))],
    taskDue := true,
    now := 10 }

/-- Witness for the amended Claim C4 at the concrete state c4wit,
cancelling handle 1 (the single queued task, so the -infinity proviso
holds and the removal is exact). -/
theorem c4_cancel_semantics_witness :
    CWellFormed c4wit ∧
      (((cancelInternalFn c4wit 1 false).1 = true ↔
        ∃ t, lookupTask c4wit.tasks 1 = some t ∧ t.ref ≠ none) ∧
      ((cancelInternalFn c4wit 1 false).1 = true ↔ 1 ∈ c4wit.queue.map Prod.fst) ∧
      ((cancelInternalFn c4wit 1 true).1 = (cancelInternalFn c4wit 1 false).1) ∧
      (lookupTask c4wit.tasks 1 = none → cancelInternalFn c4wit 1 false = (false, c4wit)) ∧
      (∀ t, lookupTask c4wit.tasks 1 = some t → t.ref = none →
        (cancelInternalFn c4wit 1 false).1 = false ∧
        (cancelInternalFn c4wit 1 false).2.queue = c4wit.queue ∧
        lookupTask (cancelInternalFn c4wit 1 false).2.tasks 1
          = some { t with cancelled := true }) ∧
      (∀ t i, lookupTask c4wit.tasks 1 = some t → t.ref = some i →
        (cancelInternalFn c4wit 1 false).1 = true ∧
        lookupTask (cancelInternalFn c4wit 1 false).2.tasks 1 = none ∧
        (cancelInternalFn c4wit 1 false).2.queue = cancelRemove c4wit.queue i) ∧
      (∀ t i, lookupTask c4wit.tasks 1 = some t → t.ref = some i →
        IsMinHeap c4wit.queue →
        (∀ k, k < c4wit.queue.length → k ≠ i → dueAt c4wit.queue k ≠ ⊥) →
        ((cancelInternalFn c4wit 1 false).2.queue).Perm (c4wit.queue.eraseIdx i)) ∧
      (blockingCancelAwaitCond c4wit.tasks 1 = true ↔ lookupTask c4wit.tasks 1 = none) ∧
      (∀ p : Bool, requeueKeeps true p = false)) :=
  ⟨by decide, c4_cancel_semantics c4wit 1 false (by decide)⟩

/-! ### Lifecycle state, WaitUntilAllWorkersAsleep and Stop
(common/scheduler.h State enum, common/scheduler.cc) -/

/-- Scheduler::State (IDLE=0, STARTED=1, STOPPING=2, STOPPED=3). -/
inductive SState
  | idle
  | started
  | stopping
  | stopped
deriving DecidableEq

/-- The numeric values of the State enum, used by the < and > comparisons
in the source. -/
def sstateNum : SState → ℕ
  | .idle => 0
  | .started => 1
  | .stopping => 2
  | .stopped => 3

/-- The two possible absl::Status results of WaitUntilAllWorkersAsleep. -/
inductive WaitOutcome
  | ok
  | cancelledErr
deriving DecidableEq

/-- The await predicate of WaitUntilAllWorkersAsleep: the state is no
longer STARTED, or every worker is sleeping and no task is due. -/
def waitAllAsleepCond (st : SState) (sleeping : List Bool) (taskDue : Bool) : Bool :=
  decide (st ≠ .started) || (sleeping.all id && !taskDue)

/-- The status computed by WaitUntilAllWorkersAsleep once the await
returns: Cancelled when the state is past STARTED, Ok otherwise. -/
def waitAllAsleepOutcome (st : SState) : WaitOutcome :=
  if 1 < sstateNum st then .cancelledErr else .ok

/-! #### Claim C6 -/

/-- Counterexample to Claim C6 as stated: on an IDLE scheduler (no workers
yet) holding a due task (event-due flag true — reachable by scheduling a
past-due task before Start), the await predicate is already true because
the state is not STARTED, and the method returns Ok even though the cached
event-due flag is true, contradicting the claim that Ok is returned only
once no task is due. -/
theorem c6_counterexample_idle_with_due_task :
    waitAllAsleepCond .idle [] true = true ∧
      waitAllAsleepOutcome .idle = .ok ∧
      true ≠ false := by
  exact ⟨by decide, by decide, by decide⟩

/-- Claim C6 (amended): when the await predicate holds (the wait has
returned), the result is Ok exactly when the scheduler has not moved past
STARTED and Cancelled exactly when it has; and in state STARTED an Ok
return does guarantee that every worker is sleeping and the event-due flag
is false.  (Below STARTED — IDLE — the method returns Ok without any
guarantee on the flag.) -/
theorem c6_wait_until_asleep (st : SState) (sleeping : List Bool)
    (taskDue : Bool) (hret : waitAllAsleepCond st sleeping taskDue = true) :
    (waitAllAsleepOutcome st = .ok ↔ sstateNum st ≤ 1) ∧
      (waitAllAsleepOutcome st = .cancelledErr ↔ 1 < sstateNum st) ∧
      (st = .started → waitAllAsleepOutcome st = .ok →
        sleeping.all id = true ∧ taskDue = false) := by
  refine ⟨?_, ?_, ?_⟩
  · cases st <;> simp [waitAllAsleepOutcome, sstateNum]
  · cases st <;> simp [waitAllAsleepOutcome, sstateNum]
  · intro hst _
    subst hst
    rw [waitAllAsleepCond] at hret
    simp only [decide_not] at hret
    rcases Bool.or_eq_true_iff.1 hret with h1 | h1
    · simp at h1
    · exact ⟨(Bool.and_eq_true_iff.1 h1).1, by
        have := (Bool.and_eq_true_iff.1 h1).2
        simpa using this⟩

/-- Witness for the amended Claim C6: a STARTED scheduler with one sleeping
worker and no due task. -/
theorem c6_wait_until_asleep_witness :
    waitAllAsleepCond .started [true] false = true ∧
      ((waitAllAsleepOutcome .started = .ok ↔ sstateNum .started ≤ 1) ∧
        (waitAllAsleepOutcome .started = .cancelledErr ↔ 1 < sstateNum .started) ∧
        (SState.started = .started → waitAllAsleepOutcome .started = .ok →
          ([true] : List Bool).all id = true ∧ false = false)) :=
  ⟨by decide, c6_wait_until_asleep .started [true] false (by decide)⟩

/-! #### Claim C7 -/

/-- The scheduler state Stop manipulates. -/
structure StopState where
  state : SState
  queue : List TaskE
  tasks : List ℕ
deriving DecidableEq

/-- Scheduler::Stop.  From below STARTED (IDLE): transition straight to
STOPPED and return — the queue and registry are NOT touched.  From past
STARTED: await the stopping thread's transition to STOPPED, with no
mutation by this call (the model returns the state unchanged; on entry in
STOPPED it already satisfies the await).  From STARTED: take the workers,
join them, then clear the queue and registry and transition to STOPPED. -/
def stopFn (s : StopState) : StopState :=
  if sstateNum s.state < 1 then { s with state := .stopped }
  else if 1 < sstateNum s.state then s
  else { state := .stopped, queue := [], tasks := [] }

/-- Counterexample to Claim C7 as stated: Stop on an IDLE scheduler with a
scheduled task (valid: ScheduleAt works in any state) transitions straight
to STOPPED but leaves the queue and the registry non-empty; they are only
cleared on the STARTED path. -/
theorem c7_counterexample_stop_from_idle :
    (stopFn (StopState.mk .idle [(1, ((5 : ℤ) : ETime))] [1])).state = .stopped ∧
      (stopFn (StopState.mk .idle [(1, ((5 : ℤ) : ETime))] [1])).queue ≠ [] ∧
      (stopFn (StopState.mk .idle [(1, ((5 : ℤ) : ETime))] [1])).tasks ≠ [] := by
  exact ⟨by decide, by decide, by decide⟩

/-- Claim C7 (amended): Stop always leaves the scheduler STOPPED (for the
STOPPING case this is ensured by the concurrent stopper being awaited, not
by this call's own mutation), and the task queue and registry are cleared
exactly by the STARTED path; a Stop from IDLE transitions directly to
STOPPED leaving queue and registry as they were. -/
theorem c7_stop_effects (s : StopState) :
    (s.state = .idle →
      stopFn s = { s with state := .stopped }) ∧
      (s.state = .started →
        stopFn s = StopState.mk .stopped [] []) ∧
      (s.state ≠ .stopping → (stopFn s).state = .stopped) := by
  refine ⟨?_, ?_, ?_⟩
  · intro hst
    rw [stopFn, hst]
    rfl
  · intro hst
    rw [stopFn, hst]
    rfl
  · intro hst
    cases hs : s.state
    · rw [stopFn, hs]; rfl
    · rw [stopFn, hs]; rfl
    · exact absurd hs hst
    · rw [stopFn, hs]
      exact hs

/-- Witness for the amended Claim C7 on an IDLE scheduler holding one
task. -/
theorem c7_stop_effects_witness :
    ((StopState.mk .idle [(1, ((5 : ℤ) : ETime))] [1]).state = .idle →
      stopFn (StopState.mk .idle [(1, ((5 : ℤ) : ETime))] [1])
        = { StopState.mk .idle [(1, ((5 : ℤ) : ETime))] [1] with state := .stopped }) ∧
      ((StopState.mk .idle [(1, ((5 : ℤ) : ETime))] [1]).state = .started →
        stopFn (StopState.mk .idle [(1, ((5 : ℤ) : ETime))] [1])
          = StopState.mk .stopped [] []) ∧
      ((StopState.mk .idle [(1, ((5 : ℤ) : ETime))] [1]).state ≠ .stopping →
        (stopFn (StopState.mk .idle [(1, ((5 : ℤ) : ETime))] [1])).state = .stopped) :=
  c7_stop_effects (StopState.mk .idle [(1, ((5 : ℤ) : ETime))] [1])

/-! ### TaskRef backlink discipline (common/scheduler.h) — claim C10

The queue slot array is modelled by the handles of the tasks the TaskRefs
point at; ref is each task's backlink, as the index of the slot holding
it.  The three queue manipulations are the ones the scheduler performs:

* pushRef: queue_.emplace_back(&task) — TaskRef construction sets the
  fresh task's backlink to the new slot (the task was just inserted in the
  registry with a null backlink);
* swapRef: one swap of two TaskRefs inside the STL heap algorithms — the
  chain of TaskRef move construction and move assignments leaves the two
  slots exchanged, each referenced task's backlink updated to its new
  slot;
* popBackRef: queue_.pop_back() — TaskRef destruction clears the dropped
  task's backlink (after pop_heap moved it to the back). -/

def getH (q : List ℕ) (i : ℕ) : ℕ := q.getD i 0

theorem getH_eq_getElem (q : List ℕ) (i : ℕ) (h : i < q.length) :
    getH q i = q[i] := by
  simp [getH, List.getD_eq_getElem?_getD, List.getElem?_eq_getElem h]

theorem getH_mem (q : List ℕ) (i : ℕ) (h : i < q.length) : getH q i ∈ q := by
  rw [getH_eq_getElem q i h]
  exact List.getElem_mem h

theorem getH_set_self (q : List ℕ) (i : ℕ) (a : ℕ) (h : i < q.length) :
    getH (q.set i a) i = a := by
  simp [getH, List.getD_eq_getElem?_getD, List.getElem?_set_self h]

theorem getH_set_ne (q : List ℕ) (i j : ℕ) (a : ℕ) (h : i ≠ j) :
    getH (q.set i a) j = getH q j := by
  simp [getH, List.getD_eq_getElem?_getD, List.getElem?_set_ne h]

theorem getH_append_lt (q r : List ℕ) (k : ℕ) (h : k < q.length) :
    getH (q ++ r) k = getH q k := by
  simp [getH, List.getD_eq_getElem?_getD, List.getElem?_append_left h]

theorem getH_append_self (q : List ℕ) (a : ℕ) :
    getH (q ++ [a]) q.length = a := by
  simp [getH, List.getD_eq_getElem?_getD,
    List.getElem?_append_right (le_refl q.length)]

theorem getH_dropLast (q : List ℕ) (k : ℕ) (h : k < q.length - 1) :
    getH q.dropLast k = getH q k := by
  simp [getH, List.getD_eq_getElem?_getD, List.getElem?_dropLast, if_pos h]

theorem getH_inj (q : List ℕ) (hq : q.Nodup) (i j : ℕ) (hi : i < q.length)
    (hj : j < q.length) (hne : i ≠ j) : getH q i ≠ getH q j := by
  rw [getH_eq_getElem q i hi, getH_eq_getElem q j hj]
  intro hc
  exact hne (List.Nodup.getElem_inj_iff hq |>.1 hc)

/-- The swap of two slots (handle view). -/
def swapH (q : List ℕ) (i j : ℕ) : List ℕ :=
  (q.set i (getH q j)).set j (getH q i)

theorem length_swapH (q : List ℕ) (i j : ℕ) : (swapH q i j).length = q.length := by
  simp [swapH]

theorem swapH_perm (q : List ℕ) (i j : ℕ) (hi : i < q.length)
    (hj : j < q.length) (hij : i ≠ j) : (swapH q i j).Perm q := by
  rw [List.perm_iff_count]
  intro x
  have hj2 : j < (q.set i (getH q j)).length := by simpa using hj
  have h1 := count_set_dec (getH q i) x (q.set i (getH q j)) j hj2
  have h2 := count_set_dec (getH q j) x q i hi
  have hgj : (q.set i (getH q j))[j] = q[j] := List.getElem_set_ne hij _
  have hei : getH q i = q[i] := getH_eq_getElem q i hi
  have hej : getH q j = q[j] := getH_eq_getElem q j hj
  rw [hgj] at h1
  rw [hei, hej] at h1
  rw [hej] at h2
  rw [swapH, hei, hej]
  omega

theorem getH_swapH_fst (q : List ℕ) (i j : ℕ) (hi : i < q.length)
    (hij : i ≠ j) : getH (swapH q i j) i = getH q j := by
  rw [swapH, getH_set_ne _ _ _ _ (Ne.symm hij), getH_set_self _ _ _ hi]

theorem getH_swapH_snd (q : List ℕ) (i j : ℕ) (hj : j < q.length) :
    getH (swapH q i j) j = getH q i := by
  rw [swapH, getH_set_self]
  simpa using hj

theorem getH_swapH_other (q : List ℕ) (i j k : ℕ) (hki : k ≠ i)
    (hkj : k ≠ j) : getH (swapH q i j) k = getH q k := by
  rw [swapH, getH_set_ne _ _ _ _ (Ne.symm hkj), getH_set_ne _ _ _ _ (Ne.symm hki)]

/-- The scheduler state the backlink invariant speaks about: the queue
slots, the registry handles, and each task's backlink. -/
structure BState where
  queue : List ℕ
  registry : List ℕ
  ref : ℕ → Option ℕ

/-- Pointwise update of the backlink map (task.set_ref). -/
def updRef (f : ℕ → Option ℕ) (h : ℕ) (v : Option ℕ) : ℕ → Option ℕ :=
  fun x => if x = h then v else f x

/-- queue_.emplace_back(&task): TaskRef construction at the new back slot
sets the task's backlink there. -/
def pushRefEff (s : BState) (h : ℕ) : BState :=
  { s with queue := s.queue ++ [h],
           ref := updRef s.ref h (some s.queue.length) }

/-- One heap swap of the TaskRefs at slots i and j: the move operations
exchange the slots and repoint both tasks' backlinks. -/
def swapRefEff (s : BState) (i j : ℕ) : BState :=
  { s with queue := swapH s.queue i j,
           ref := updRef (updRef s.ref (getH s.queue i) (some j))
                    (getH s.queue j) (some i) }

/-- queue_.pop_back(): TaskRef destruction clears the dropped task's
backlink. -/
def popBackRefEff (s : BState) : BState :=
  { s with queue := s.queue.dropLast,
           ref := updRef s.ref (getH s.queue (s.queue.length - 1)) none }

/-- The per-task backlink condition of the invariant: a non-null backlink
addresses a slot holding the task; a null backlink means the task is not
queued. -/
def refConsistent (s : BState) (h : ℕ) : Prop :=
  match s.ref h with
  | some i => i < s.queue.length ∧ getH s.queue i = h
  | none => h ∉ s.queue

instance (s : BState) (h : ℕ) : Decidable (refConsistent s h) := by
  unfold refConsistent
  rcases hr : s.ref h with _ | i <;> (simp only [hr]; infer_instance)

/-- Backlink consistency: every non-empty slot's task backlinks to that
slot; every registry task's non-null backlink addresses a slot holding it,
and a null backlink means the task is not in the queue; queue entries are
registry tasks and slots hold pairwise distinct tasks. -/
def BInv (s : BState) : Prop :=
  (∀ i, i < s.queue.length → s.ref (getH s.queue i) = some i) ∧
  (∀ h ∈ s.registry, refConsistent s h) ∧
  (∀ i, i < s.queue.length → getH s.queue i ∈ s.registry) ∧
  s.queue.Nodup

instance (s : BState) : Decidable (BInv s) := by
  unfold BInv
  infer_instance

theorem binv_pushRef (s : BState) (h : ℕ) (hb : BInv s)
    (hreg : h ∈ s.registry) (href : s.ref h = none) :
    BInv (pushRefEff s h) := by
  obtain ⟨h1, h2, h3, h4⟩ := hb
  have hnot : h ∉ s.queue := by
    have hc := h2 h hreg
    simp only [refConsistent, href] at hc
    exact hc
  refine ⟨?_, ?_, ?_, ?_⟩
  · intro i hi
    show updRef s.ref h (some s.queue.length) (getH (s.queue ++ [h]) i) = some i
    have hlen : i < s.queue.length + 1 := by simpa [pushRefEff] using hi
    rcases Nat.lt_or_ge i s.queue.length with hlt | hge
    · rw [getH_append_lt _ _ _ hlt]
      have hne : getH s.queue i ≠ h := by
        intro hc
        exact hnot (hc ▸ getH_mem _ _ hlt)
      simp only [updRef]
      rw [if_neg hne]
      exact h1 i hlt
    · have hieq : i = s.queue.length := by omega
      subst hieq
      rw [getH_append_self]
      simp [updRef]
  · intro g hg
    by_cases hgh : g = h
    · subst hgh
      have hru : (pushRefEff s g).ref g = some s.queue.length := by
        simp [pushRefEff, updRef]
      simp only [refConsistent, hru]
      exact ⟨by simp [pushRefEff], getH_append_self _ _⟩
    · have hru : (pushRefEff s h).ref g = s.ref g := by
        simp only [pushRefEff, updRef]
        rw [if_neg hgh]
      simp only [refConsistent, hru]
      rcases hr : s.ref g with _ | i
      · have hc := h2 g hg
        simp only [refConsistent, hr] at hc
        show g ∉ s.queue ++ [h]
        intro hmem
        rcases List.mem_append.1 hmem with hm | hm
        · exact hc hm
        · simp only [List.mem_singleton] at hm
          exact hgh hm
      · have hc := h2 g hg
        simp only [refConsistent, hr] at hc
        obtain ⟨hlt, hgh2⟩ := hc
        refine ⟨by simp [pushRefEff]; omega, ?_⟩
        show getH (s.queue ++ [h]) i = g
        rw [getH_append_lt _ _ _ hlt]
        exact hgh2
  · intro i hi
    have hlen : i < s.queue.length + 1 := by simpa [pushRefEff] using hi
    show getH (s.queue ++ [h]) i ∈ s.registry
    rcases Nat.lt_or_ge i s.queue.length with hlt | hge
    · rw [getH_append_lt _ _ _ hlt]
      exact h3 i hlt
    · have hieq : i = s.queue.length := by omega
      subst hieq
      rw [getH_append_self]
      exact hreg
  · show (s.queue ++ [h]).Nodup
    rw [List.nodup_append]
    refine ⟨h4, List.nodup_singleton h, ?_⟩
    intro a ha hamem
    simp only [List.mem_singleton] at hamem
    exact hnot (hamem ▸ ha)

theorem binv_swapRef (s : BState) (i j : ℕ) (hb : BInv s)
    (hi : i < s.queue.length) (hj : j < s.queue.length) (hij : i ≠ j) :
    BInv (swapRefEff s i j) := by
  obtain ⟨h1, h2, h3, h4⟩ := hb
  have hab : getH s.queue i ≠ getH s.queue j := getH_inj _ h4 i j hi hj hij
  have hrefb : (swapRefEff s i j).ref (getH s.queue j) = some i := by
    simp [swapRefEff, updRef]
  have hrefa : (swapRefEff s i j).ref (getH s.queue i) = some j := by
    simp [swapRefEff, updRef, hab]
  have hrefo : ∀ x, x ≠ getH s.queue i → x ≠ getH s.queue j →
      (swapRefEff s i j).ref x = s.ref x := by
    intro x hxa hxb
    simp only [swapRefEff, updRef]
    rw [if_neg hxb, if_neg hxa]
  have hq_i : getH (swapRefEff s i j).queue i = getH s.queue j :=
    getH_swapH_fst _ _ _ hi hij
  have hq_j : getH (swapRefEff s i j).queue j = getH s.queue i :=
    getH_swapH_snd _ _ _ hj
  have hq_o : ∀ k, k ≠ i → k ≠ j →
      getH (swapRefEff s i j).queue k = getH s.queue k := fun k hki hkj =>
    getH_swapH_other _ _ _ _ hki hkj
  have hlen : (swapRefEff s i j).queue.length = s.queue.length :=
    length_swapH _ _ _
  have hperm : (swapRefEff s i j).queue.Perm s.queue := swapH_perm _ _ _ hi hj hij
  refine ⟨?_, ?_, ?_, ?_⟩
  · intro k hk
    rw [hlen] at hk
    by_cases hki : k = i
    · subst hki; rw [hq_i]; exact hrefb
    · by_cases hkj : k = j
      · subst hkj; rw [hq_j]; exact hrefa
      · rw [hq_o k hki hkj]
        rw [hrefo _ (getH_inj _ h4 k i hk hi hki) (getH_inj _ h4 k j hk hj hkj)]
        exact h1 k hk
  · intro g hg
    by_cases hgb : g = getH s.queue j
    · subst hgb
      simp only [refConsistent, hrefb]
      exact ⟨by rw [hlen]; exact hi, hq_i⟩
    · by_cases hga : g = getH s.queue i
      · subst hga
        simp only [refConsistent, hrefa]
        exact ⟨by rw [hlen]; exact hj, hq_j⟩
      · have hre := hrefo g hga hgb
        simp only [refConsistent, hre]
        have hc := h2 g hg
        simp only [refConsistent] at hc
        rcases hr : s.ref g with _ | k
        · simp only [hr] at hc
          exact fun hm => hc (hperm.mem_iff.1 hm)
        · simp only [hr] at hc
          obtain ⟨hk, hkg⟩ := hc
          have hkne_i : k ≠ i := by
            intro hc2
            exact hga (by rw [← hkg, hc2])
          have hkne_j : k ≠ j := by
            intro hc2
            exact hgb (by rw [← hkg, hc2])
          exact ⟨by rw [hlen]; exact hk, by rw [hq_o k hkne_i hkne_j]; exact hkg⟩
  · intro k hk
    rw [hlen] at hk
    by_cases hki : k = i
    · subst hki; rw [hq_i]; exact h3 j hj
    · by_cases hkj : k = j
      · subst hkj; rw [hq_j]; exact h3 i hi
      · rw [hq_o k hki hkj]; exact h3 k hk
  · exact hperm.nodup_iff.2 h4

theorem binv_popBack (s : BState) (hb : BInv s) (hne : s.queue ≠ []) :
    BInv (popBackRefEff s) := by
  obtain ⟨h1, h2, h3, h4⟩ := hb
  have hlen0 : 0 < s.queue.length := List.length_pos.2 hne
  have hlast_lt : s.queue.length - 1 < s.queue.length := by omega
  have hlenq : (popBackRefEff s).queue.length = s.queue.length - 1 := by
    show s.queue.dropLast.length = _
    simp
  have hq_k : ∀ k, k < s.queue.length - 1 →
      getH (popBackRefEff s).queue k = getH s.queue k := fun k hk =>
    getH_dropLast _ _ hk
  have hlast_ne : ∀ k, k < s.queue.length - 1 →
      getH s.queue k ≠ getH s.queue (s.queue.length - 1) := fun k hk =>
    getH_inj _ h4 _ _ (by omega) hlast_lt (by omega)
  refine ⟨?_, ?_, ?_, ?_⟩
  · intro k hk
    rw [hlenq] at hk
    rw [hq_k k hk]
    have hre : (popBackRefEff s).ref (getH s.queue k) = s.ref (getH s.queue k) := by
      simp only [popBackRefEff, updRef]
      rw [if_neg (hlast_ne k hk)]
    rw [hre]
    exact h1 k (by omega)
  · intro g hg
    by_cases hgl : g = getH s.queue (s.queue.length - 1)
    · subst hgl
      have hre : (popBackRefEff s).ref (getH s.queue (s.queue.length - 1)) = none := by
        simp [popBackRefEff, updRef]
      simp only [refConsistent, hre]
      show getH s.queue (s.queue.length - 1) ∉ s.queue.dropLast
      intro hmem
      obtain ⟨k, hk, hkv⟩ := List.getElem_of_mem hmem
      rw [List.length_dropLast] at hk
      have hgk : getH s.queue.dropLast k = getH s.queue (s.queue.length - 1) := by
        rw [getH_eq_getElem _ _ (by simpa using hk)]
        exact hkv
      rw [getH_dropLast _ _ hk] at hgk
      exact hlast_ne k hk hgk
    · have hre : (popBackRefEff s).ref g = s.ref g := by
        simp only [popBackRefEff, updRef]
        rw [if_neg hgl]
      simp only [refConsistent, hre]
      have hc := h2 g hg
      simp only [refConsistent] at hc
      rcases hr : s.ref g with _ | k
      · simp only [hr] at hc
        exact fun hm => hc ((List.dropLast_sublist s.queue).subset hm)
      · simp only [hr] at hc
        obtain ⟨hk, hkg⟩ := hc
        have hkne : k ≠ s.queue.length - 1 := by
          intro hc2
          exact hgl (by rw [← hkg, hc2])
        have hklt : k < s.queue.length - 1 := by omega
        exact ⟨by rw [hlenq]; omega, by rw [hq_k k hklt]; exact hkg⟩
  · intro k hk
    rw [hlenq] at hk
    rw [hq_k k hk]
    exact h3 k (by omega)
  · exact h4.sublist (List.dropLast_sublist s.queue)

/-- Claim C10: backlink consistency is preserved by every queue
manipulation (TaskRef construction at emplace_back, the move operations
realising a heap swap, destruction at pop_back), and under the invariant a
task's backlink is null exactly while it is not in the queue. -/
theorem c10_backlink_consistency (s : BState) (h i j : ℕ) (hb : BInv s) :
    (h ∈ s.registry → s.ref h = none → BInv (pushRefEff s h)) ∧
      (i < s.queue.length → j < s.queue.length → i ≠ j →
        BInv (swapRefEff s i j)) ∧
      (s.queue ≠ [] → BInv (popBackRefEff s)) ∧
      (∀ g ∈ s.registry, (s.ref g = none ↔ g ∉ s.queue)) := by
  refine ⟨fun hreg href => binv_pushRef s h hb hreg href,
    fun hi hj hij => binv_swapRef s i j hb hi hj hij,
    fun hne => binv_popBack s hb hne, ?_⟩
  intro g hg
  have hc := hb.2.1 g hg
  constructor
  · intro hnone
    simp only [refConsistent, hnone] at hc
    exact hc
  · intro hnot
    rcases hr : s.ref g with _ | k
    · rfl
    · simp only [refConsistent, hr] at hc
      obtain ⟨hk, hkg⟩ := hc
      exact absurd (hkg ▸ getH_mem _ _ hk) hnot

/-- Concrete state for the C10 witness: slots [5, 9] with correct
backlinks, plus the executing task 7 with a null backlink. -/
def c10wit : BState :=
  { queue := [5, 9],
    registry := [5, 9, 7],
    ref := fun x => if x = 5 then some 0 else if x = 9 then some 1 else none }

/-- Witness for Claim C10 at c10wit, pushing task 7, swapping slots 0 and
1, and popping the back slot. -/
theorem c10_backlink_consistency_witness :
    BInv c10wit ∧
      ((7 ∈ c10wit.registry → c10wit.ref 7 = none → BInv (pushRefEff c10wit 7)) ∧
        (0 < c10wit.queue.length → 1 < c10wit.queue.length → (0 : ℕ) ≠ 1 →
          BInv (swapRefEff c10wit 0 1)) ∧
        (c10wit.queue ≠ [] → BInv (popBackRefEff c10wit)) ∧
        (∀ g ∈ c10wit.registry, (c10wit.ref g = none ↔ g ∉ c10wit.queue))) :=
  ⟨by decide, c10_backlink_consistency c10wit 7 0 1 (by decide)⟩

end TsdbSched
